import Mathlib

/-!
# Bitxtractor-Go: the block-file reader of `main.go`

A shallow embedding of `xorReader.Read` and `readBlockFile` together with the
pieces of the Go standard library they run on (`os.File.Read`,
`bufio.Reader.Read`, `io.ReadAtLeast`, `io.ReadFull`, `binary.Read`), followed
by theorems about them.

Conventions.
* A byte is a natural number (below 256 for real data); a byte slice is a list.
* `uint64` arithmetic is written on `Nat` with an explicit `% 2 ^ 64`.
* A `Read(p)` call is modelled by the length of `p` going in and the bytes
  `p[:n]` coming out, so `n` is the length of the returned list.
* Loops that Go writes as `for` carry a `fuel` argument; `none` means the fuel
  ran out, and the theorems show how much fuel is enough.
* `main.go` calls the block decoder of package `wire` (`blk.Deserialize`,
  `tx.TxHash`), which is not among the sources. The frame loop takes the
  decoder as a parameter; where a statement needs a decoder, it is the one
  described in sections 3 and 4.3 of the specification.
-/

namespace Bitxtractor

/-! ## Errors and read results -/

/-- Error values that can travel through the readers: the two sentinel errors of
package `io` and an operating-system error identified by a number. -/
inductive Error where
  | EOF
  | ErrUnexpectedEOF
  | ErrShortBuffer
  | errno (code : Nat)
  deriving DecidableEq

/-- Result of one `Read(p)` call: the bytes `p[:n]`, the error, and the state of
the reader afterwards. -/
structure ReadResult (σ : Type) where
  bytes : List Nat
  err : Option Error
  state : σ
  deriving DecidableEq

/-! ## `os.File` -/

/-- An open file: the bytes not yet read and a schedule of short reads. The
`k`-th read that finds data returns at most `c + 1` bytes where `c` is the
`k`-th entry of `sched`; once the schedule is used up every read is as long as
the buffer allows (the behaviour of a regular file). -/
structure File where
  data : List Nat
  sched : List Nat
  deriving DecidableEq

/-- Number of bytes the next read may deliver into a buffer of length `len`. -/
def File.chunk (f : File) (len : Nat) : Nat :=
  match f.sched with
  | [] => len
  | c :: _ => min len (c + 1)

/-- One call of `(*os.File).Read`: nothing for an empty buffer, `io.EOF` at the
end of the file, otherwise between one and `len` bytes and no error. -/
def File.Read (f : File) (len : Nat) : ReadResult File :=
  if len = 0 then ⟨[], none, f⟩
  else if f.data = [] then ⟨[], some Error.EOF, f⟩
  else ⟨f.data.take (f.chunk len), none, ⟨f.data.drop (f.chunk len), f.sched.tail⟩⟩

/-! ## `bufio.Reader` -/

/-- Buffer size of `bufio.NewReader`. -/
def defaultBufSize : Nat := 4096

/-- State of a `bufio.Reader`: the underlying reader, the unread part
`b.buf[b.r:b.w]` of the buffer, and the stored error `b.err`. -/
structure bufio.Reader (σ : Type) where
  rd : σ
  buf : List Nat
  err : Option Error
  deriving DecidableEq

/-- Constructor `bufio.NewReader(rd)`. -/
def bufio.NewReader {σ : Type} (rd : σ) : bufio.Reader σ := ⟨rd, [], none⟩

/-- One call of `(*bufio.Reader).Read(p)` with `len(p) = len`, over an
underlying reader whose `Read` is `rdRead`. -/
def bufio.Reader.Read {σ : Type} (rdRead : σ → Nat → ReadResult σ)
    (b : bufio.Reader σ) (len : Nat) : ReadResult (bufio.Reader σ) :=
  if len = 0 then
    if b.buf ≠ [] then ⟨[], none, b⟩ else ⟨[], b.err, { b with err := none }⟩
  else if b.buf = [] then
    if b.err ≠ none then ⟨[], b.err, { b with err := none }⟩
    else if defaultBufSize ≤ len then
      -- large read, empty buffer: read directly into p
      let res := rdRead b.rd len
      ⟨res.bytes, res.err, ⟨res.state, [], none⟩⟩
    else
      -- one read into the internal buffer
      let res := rdRead b.rd defaultBufSize
      if res.bytes = [] then ⟨[], res.err, ⟨res.state, [], none⟩⟩
      else
        ⟨res.bytes.take len, none, ⟨res.state, res.bytes.drop len, res.err⟩⟩
  else
    ⟨b.buf.take len, none, { b with buf := b.buf.drop len }⟩

/-! ## `xorReader` (main.go, lines 22-35) -/

/-- The struct `xorReader`: wrapped reader `r`, the key `[8]byte`, and the
running offset `pos` (a `uint64`). -/
structure xorReader (σ : Type) where
  r : σ
  key : List Nat
  pos : Nat
  deriving DecidableEq

/-- The loop `for i := 0; i < n; i++ { p[i] ^= x.key[(x.pos+uint64(i))&7] }`,
run from index `i` over the remaining bytes of `p[:n]`. -/
def xorLoop (key : List Nat) (pos : Nat) : Nat → List Nat → List Nat
  | _, [] => []
  | i, b :: p => (b ^^^ key.getD (((pos + i) % 2 ^ 64) &&& 7) 0) :: xorLoop key pos (i + 1) p

/-- The method `xorReader.Read`. -/
def xorReader.Read {σ : Type} (rRead : σ → Nat → ReadResult σ)
    (x : xorReader σ) (len : Nat) : ReadResult (xorReader σ) :=
  let res := rRead x.r len
  ⟨xorLoop x.key x.pos 0 res.bytes, res.err,
    { r := res.state, key := x.key, pos := (x.pos + res.bytes.length) % 2 ^ 64 }⟩

/-! ## Sequences of reads -/

/-- Bytes returned by a sequence of `Read` calls whose buffer lengths are
`sizes`, concatenated in order. -/
def readSeq {σ : Type} (read : σ → Nat → ReadResult σ) : σ → List Nat → List Nat
  | _, [] => []
  | s, len :: sizes => (read s len).bytes ++ readSeq read (read s len).state sizes

/-- The transform of the deobfuscation stream written position by position:
the byte at absolute offset `o + i` is XORed with `key[(o + i) mod 8]`. -/
def xorAt (key : List Nat) : Nat → List Nat → List Nat
  | _, [] => []
  | o, b :: bs => (b ^^^ key.getD (o % 8) 0) :: xorAt key (o + 1) bs

/-! ## `io.ReadAtLeast`, `io.ReadFull`, `binary.Read` -/

/-- The loop `for n < min && err == nil { nn, err = r.Read(buf[n:]); n += nn }`
of `io.ReadAtLeast`; `got` is `buf[:n]`. -/
def io.readLoop {σ : Type} (read : σ → Nat → ReadResult σ) (len min : Nat) :
    Nat → σ → List Nat → Option Error → Option (ReadResult σ)
  | 0, s, got, err =>
    if got.length < min ∧ err = none then none else some ⟨got, err, s⟩
  | fuel + 1, s, got, err =>
    if got.length < min ∧ err = none then
      io.readLoop read len min fuel (read s (len - got.length)).state
        (got ++ (read s (len - got.length)).bytes) (read s (len - got.length)).err
    else some ⟨got, err, s⟩

/-- The function `io.ReadAtLeast(r, buf, min)` with `len(buf) = len`. -/
def io.ReadAtLeast {σ : Type} (read : σ → Nat → ReadResult σ) (fuel : Nat) (s : σ)
    (len min : Nat) : Option (ReadResult σ) :=
  if len < min then some ⟨[], some Error.ErrShortBuffer, s⟩
  else
    (io.readLoop read len min fuel s [] none).map fun res =>
      if min ≤ res.bytes.length then { res with err := none }
      else if 0 < res.bytes.length ∧ res.err = some Error.EOF then
        { res with err := some Error.ErrUnexpectedEOF }
      else res

/-- The function `io.ReadFull(r, buf)` with `len(buf) = len`. -/
def io.ReadFull {σ : Type} (read : σ → Nat → ReadResult σ) (fuel : Nat) (s : σ)
    (len : Nat) : Option (ReadResult σ) :=
  io.ReadAtLeast read fuel s len len

/-- The method `binary.LittleEndian.Uint32`:
`uint32(b[0]) | uint32(b[1])<<8 | uint32(b[2])<<16 | uint32(b[3])<<24`. -/
def binary.LittleEndian.Uint32 (b : List Nat) : Nat :=
  (b.getD 0 0 ||| b.getD 1 0 <<< 8 ||| b.getD 2 0 <<< 16 ||| b.getD 3 0 <<< 24) % 2 ^ 32

/-- The call `binary.Read(r, binary.LittleEndian, &data)` for `data` of type
`uint32`: four bytes through `io.ReadFull`; on an error `data` keeps its value.
Returns the value of `data`, the error and the reader. -/
def binary.Read {σ : Type} (read : σ → Nat → ReadResult σ) (fuel : Nat) (s : σ)
    (data : Nat) : Option (Nat × Option Error × σ) :=
  (io.ReadFull read fuel s 4).map fun res =>
    match res.err with
    | some e => (data, some e, res.state)
    | none => (binary.LittleEndian.Uint32 res.bytes, none, res.state)

/-! ## `readBlockFile` (main.go, lines 37-136) -/

/-- The constant `MainnetMagic`. -/
def MainnetMagic : Nat := 0xD9B4BEF9

/-- How a run of `readBlockFile` ends: `return nil` or `return err`, or one of
the four `log.Fatal` exits of the frame loop. -/
inductive Halt where
  | returned (err : Option Error)
  | fatalBadMagic (magic offset : Nat)
  | fatalLength (err : Error)
  | fatalPayload (err : Error)
  | fatalDecode
  deriving DecidableEq

/-- What a run did, in order: the lengths of the reads it asked of
`blockReader`, the payloads it handed to `blk.Deserialize`, the blocks it
reported, and how it ended. -/
structure Run (β : Type) where
  reads : List Nat
  payloads : List (List Nat)
  blocks : List β
  halt : Halt
  deriving DecidableEq

/-- The reader stack of line 73-75: `bufio.NewReader(xr)` over
`xorReader{r: bufio.NewReader(blockFile)}`. -/
abbrev BlockReader : Type := bufio.Reader (xorReader (bufio.Reader File))

/-- The `Read` method of `xr`. -/
def xrRead : xorReader (bufio.Reader File) → Nat → ReadResult (xorReader (bufio.Reader File)) :=
  xorReader.Read (bufio.Reader.Read File.Read)

/-- The `Read` method of `blockReader`. -/
def blockReaderRead : BlockReader → Nat → ReadResult BlockReader :=
  bufio.Reader.Read xrRead

/-- The `for` loop of lines 77-133. `Deserialize` stands for
`blk.Deserialize(bytes.NewReader(payload))`, `none` being an error. The report
of lines 99-132 only prints fields of `blk`; it is recorded as `blk` itself in
`blocks`. An iteration that goes round prepends its three reads, its payload
and its block to what the rest of the run does. -/
def frameLoop {β : Type} (Deserialize : List Nat → Option β) :
    Nat → BlockReader → Option (Run β)
  | 0, _ => none
  | fuel + 1, br =>
    match binary.Read blockReaderRead fuel br 0 with
    | none => none
    | some (magic, err, br1) =>
      if err = some Error.EOF then some ⟨[4], [], [], Halt.returned none⟩
      else if magic ≠ MainnetMagic then
        some ⟨[4], [], [], Halt.fatalBadMagic magic ((br1.rd.pos + 2 ^ 64 - 4) % 2 ^ 64)⟩
      else
        match binary.Read blockReaderRead fuel br1 0 with
        | none => none
        | some (_, some e, _) => some ⟨[4, 4], [], [], Halt.fatalLength e⟩
        | some (length, none, br2) =>
          match io.ReadFull blockReaderRead fuel br2 length with
          | none => none
          | some res =>
            match res.err with
            | some e => some ⟨[4, 4, length], [], [], Halt.fatalPayload e⟩
            | none =>
              match Deserialize res.bytes with
              | none => some ⟨[4, 4, length], [res.bytes], [], Halt.fatalDecode⟩
              | some blk =>
                (frameLoop Deserialize fuel res.state).map fun run =>
                  ⟨4 :: 4 :: length :: run.reads, res.bytes :: run.payloads,
                    blk :: run.blocks, run.halt⟩

/-- What `readBlockFile` meets outside itself: the result of `os.Stat(XORFile)`
(an error or `fileInfo.Size()`), of `os.Open(XORFile)`, of
`os.Open(BlockFile)`, and the block decoder. -/
structure Env (β : Type) where
  statXOR : Except Error Nat
  openXOR : Except Error File
  openBlock : Except Error File
  Deserialize : List Nat → Option β

/-- Lines 38-65: the value of `xorKey` when the block file is about to be
opened, or the error returned before that. `file.Read(xorKey[:])` overwrites
the first `n` bytes of the all-zero key; the `log.Println` calls leave no trace
here. -/
def loadKey {β : Type} (env : Env β) : Except Error (List Nat) :=
  match env.statXOR with
  | Except.error _ => Except.ok (List.replicate 8 0)
  | Except.ok size =>
    if 0 < size then
      match env.openXOR with
      | Except.error e => Except.error e
      | Except.ok file =>
        match (file.Read 8).err with
        | some e => Except.error e
        | none =>
          Except.ok ((file.Read 8).bytes ++ (List.replicate 8 0).drop (file.Read 8).bytes.length)
    else Except.ok (List.replicate 8 0)

/-- The reader `blockReader` of line 75 for a block file and a key. -/
def newBlockReader (blockFile : File) (xorKey : List Nat) : BlockReader :=
  bufio.NewReader ⟨bufio.NewReader blockFile, xorKey, 0⟩

/-- The function `readBlockFile`. -/
def readBlockFile {β : Type} (env : Env β) (fuel : Nat) : Option (Run β) :=
  match loadKey env with
  | Except.error e => some ⟨[], [], [], Halt.returned (some e)⟩
  | Except.ok xorKey =>
    match env.openBlock with
    | Except.error e => some ⟨[], [], [], Halt.returned (some e)⟩
    | Except.ok blockFile => frameLoop env.Deserialize fuel (newBlockReader blockFile xorKey)

/-! ## The block file format -/

/-- Little-endian bytes of a 32-bit value. -/
def le32 (n : Nat) : List Nat :=
  [n % 256, n / 2 ^ 8 % 256, n / 2 ^ 16 % 256, n / 2 ^ 24 % 256]

/-- One frame: magic, length of the payload, payload. -/
def frame (magic : Nat) (payload : List Nat) : List Nat :=
  le32 magic ++ le32 payload.length ++ payload

/-- A sequence of frames carrying the mainnet magic. -/
def frames : List (List Nat) → List Nat
  | [] => []
  | p :: ps => frame MainnetMagic p ++ frames ps

/-! ## Readers seen as byte streams -/

/-- A reader delivers the stream `str s`: each `Read` into a non-empty buffer
returns a non-empty initial piece of what is left of the stream and no error,
or nothing and `io.EOF` once the stream is used up; `inv` is what the states
along the way satisfy. -/
def StreamReader {σ : Type} (read : σ → Nat → ReadResult σ) (str : σ → List Nat)
    (inv : σ → Prop) : Prop :=
  ∀ s len, inv s → 0 < len →
    inv (read s len).state ∧ (read s len).bytes.length ≤ len ∧
    (read s len).bytes ++ str (read s len).state = str s ∧
    (str s = [] → (read s len).err = some Error.EOF) ∧
    (str s ≠ [] → (read s len).bytes ≠ [] ∧ (read s len).err = none)

/-- Bytes a `bufio.Reader` still has to deliver: its buffer, then the stream of
the reader under it. -/
def bufio.Reader.stream {σ : Type} (str : σ → List Nat) (b : bufio.Reader σ) : List Nat :=
  b.buf ++ str b.rd

/-- No error is stored in the `bufio.Reader`, and the reader under it is sound. -/
def bufio.Reader.inv {σ : Type} (inv : σ → Prop) (b : bufio.Reader σ) : Prop :=
  b.err = none ∧ inv b.rd

/-- Bytes an `xorReader` still has to deliver. -/
def xorReader.stream {σ : Type} (str : σ → List Nat) (x : xorReader σ) : List Nat :=
  xorAt x.key x.pos (str x.r)

/-- The deobfuscated stream that `blockReader` still has to deliver. -/
def BlockReader.stream (b : BlockReader) : List Nat :=
  bufio.Reader.stream (xorReader.stream (bufio.Reader.stream File.data)) b

/-- No error is stored in either `bufio.Reader` of the stack. -/
def BlockReader.inv (b : BlockReader) : Prop :=
  bufio.Reader.inv (fun x : xorReader (bufio.Reader File) =>
    bufio.Reader.inv (fun _ : File => True) x.r) b

/-! ## Block and transaction decoder

The decoder that `readBlockFile` calls (`blk.Deserialize`, `tx.TxHash`) is not
part of `main.go`; the definitions of this section follow sections 3 and 4.3 of
the specification. -/

/-- Modelled from the spec: a decoding step of section 4.3, missing from the
sources; it consumes bytes from the front of the payload and fails (`none`) when
the payload ends too early. -/
abbrev Parser (α : Type) : Type := List Nat → Option (α × List Nat)

/-- Modelled from the spec: sequencing of two decoding steps of section 4.3
(the decoder is missing from the sources). -/
def Parser.bind {α β : Type} (p : Parser α) (f : α → Parser β) : Parser β :=
  fun s => match p s with
    | none => none
    | some (a, r) => f a r

/-- Modelled from the spec: a decoding step of section 4.3 that consumes
nothing (the decoder is missing from the sources). -/
def Parser.pure {α : Type} (a : α) : Parser α := fun s => some (a, s)

/-- Modelled from the spec: reading `n` raw bytes, a decode failure when fewer
remain (section 4.3; the decoder is missing from the sources). -/
def readBytes (n : Nat) : Parser (List Nat) :=
  fun s => if n ≤ s.length then some (s.take n, s.drop n) else none

/-- Modelled from the spec: value of a little-endian byte string (section 4.3,
"all little-endian"; the decoder is missing from the sources). -/
def leValue : List Nat → Nat
  | [] => 0
  | b :: bs => b + 256 * leValue bs

/-- Modelled from the spec: the `k` little-endian bytes of a value, used to
serialize fixed-width fields (section 4.3; the encoder is missing from the
sources). -/
def leBytes : Nat → Nat → List Nat
  | 0, _ => []
  | k + 1, v => v % 256 :: leBytes k (v / 256)

/-- Modelled from the spec: reading a fixed-width little-endian integer of `n`
bytes (section 4.3; the decoder is missing from the sources). -/
def readLE (n : Nat) : Parser Nat :=
  (readBytes n).bind fun bs => Parser.pure (leValue bs)

/-- Modelled from the spec: decoding a compact-size integer (section 4.3 step 2;
the decoder is missing from the sources): a first byte up to 252 is the value,
253, 254 and 255 introduce a 2-, 4- and 8-byte value, and any tier is accepted. -/
def readVarInt : Parser Nat :=
  fun s => match s with
    | [] => none
    | b :: t =>
      if b < 253 then some (b, t)
      else if b = 253 then readLE 2 t
      else if b = 254 then readLE 4 t
      else readLE 8 t

/-- Modelled from the spec: encoding a compact-size integer in the smallest tier
(section 4.3 step 2; the encoder is missing from the sources). -/
def writeVarInt (v : Nat) : List Nat :=
  if v < 253 then [v]
  else if v < 2 ^ 16 then 253 :: leBytes 2 v
  else if v < 2 ^ 32 then 254 :: leBytes 4 v
  else 255 :: leBytes 8 v

/-- Modelled from the spec: decoding `n` elements one after the other, as the
counts of section 4.3 ask (the decoder is missing from the sources). -/
def repeatP {α : Type} (p : Parser α) : Nat → Parser (List α)
  | 0 => Parser.pure []
  | n + 1 => p.bind fun a => (repeatP p n).bind fun l => Parser.pure (a :: l)

/-- Modelled from the spec: the previous-output reference of an input,
`{ txid: 32 bytes, index: uint32 }` (section 3; the type is missing from the
sources, which only read its fields `Hash` and `Index`). -/
structure OutPoint where
  Hash : List Nat
  Index : Nat
  deriving DecidableEq

/-- Modelled from the spec: a transaction input (section 3; the type is missing
from the sources). -/
structure TxIn where
  PreviousOutPoint : OutPoint
  SignatureScript : List Nat
  Sequence : Nat
  deriving DecidableEq

/-- Modelled from the spec: a transaction output (section 3; the type is
missing from the sources). -/
structure TxOut where
  Value : Nat
  PkScript : List Nat
  deriving DecidableEq

/-- Modelled from the spec: a transaction (section 3; the type is missing from
the sources): version, inputs, outputs, the optional witness data with one
stack of items per input, and the locktime. -/
structure MsgTx where
  Version : Nat
  TxIn : List TxIn
  TxOut : List TxOut
  Witness : Option (List (List (List Nat)))
  LockTime : Nat
  deriving DecidableEq

/-- Modelled from the spec: the 80-byte block header (section 3; the type is
missing from the sources). -/
structure BlockHeader where
  Version : Nat
  PrevBlock : List Nat
  MerkleRoot : List Nat
  Timestamp : Nat
  Bits : Nat
  Nonce : Nat
  deriving DecidableEq

/-- Modelled from the spec: a block, header plus transactions (section 3; the
type is missing from the sources). -/
structure MsgBlock where
  Header : BlockHeader
  Transactions : List MsgTx
  deriving DecidableEq

/-- Modelled from the spec: decoding one input, section 4.3 step 3c (the
decoder is missing from the sources). -/
def parseTxIn : Parser TxIn :=
  (readBytes 32).bind fun hash =>
  (readLE 4).bind fun index =>
  readVarInt.bind fun n =>
  (readBytes n).bind fun script =>
  (readLE 4).bind fun sequence =>
  Parser.pure ⟨⟨hash, index⟩, script, sequence⟩

/-- Modelled from the spec: decoding one output, section 4.3 step 3d (the
decoder is missing from the sources). -/
def parseTxOut : Parser TxOut :=
  (readLE 8).bind fun value =>
  readVarInt.bind fun n =>
  (readBytes n).bind fun script =>
  Parser.pure ⟨value, script⟩

/-- Modelled from the spec: the peek of section 4.3 step 3b (the decoder is
missing from the sources): two bytes are read tentatively; `0x00, 0x01` are
consumed and set the witness flag, anything else is left in place to be read
again as the input count. -/
def peekMarker : Parser Bool :=
  fun s => match s with
    | a :: b :: t => if a = 0 ∧ b = 1 then some (true, t) else some (false, a :: b :: t)
    | _ => none

/-- Modelled from the spec: decoding the witness stack of one input, section
4.3 step 3e (the decoder is missing from the sources). -/
def parseWitnessStack : Parser (List (List Nat)) :=
  readVarInt.bind fun k => repeatP (readVarInt.bind fun n => readBytes n) k

/-- Modelled from the spec: decoding one transaction, section 4.3 step 3 (the
decoder is missing from the sources). -/
def parseTx : Parser MsgTx :=
  (readLE 4).bind fun version =>
  peekMarker.bind fun flag =>
  readVarInt.bind fun nin =>
  (repeatP parseTxIn nin).bind fun ins =>
  readVarInt.bind fun nout =>
  (repeatP parseTxOut nout).bind fun outs =>
  (if flag then (repeatP parseWitnessStack nin).bind fun w => Parser.pure (some w)
    else Parser.pure none).bind fun witness =>
  (readLE 4).bind fun lockTime =>
  Parser.pure ⟨version, ins, outs, witness, lockTime⟩

/-- Modelled from the spec: decoding the header, section 4.3 step 1 (the
decoder is missing from the sources). -/
def parseHeader : Parser BlockHeader :=
  (readLE 4).bind fun version =>
  (readBytes 32).bind fun prev =>
  (readBytes 32).bind fun merkle =>
  (readLE 4).bind fun time =>
  (readLE 4).bind fun bits =>
  (readLE 4).bind fun nonce =>
  Parser.pure ⟨version, prev, merkle, time, bits, nonce⟩

/-- Modelled from the spec: decoding a block, section 4.3 steps 1 to 3 (the
decoder is missing from the sources). -/
def parseBlock : Parser MsgBlock :=
  parseHeader.bind fun header =>
  readVarInt.bind fun n =>
  (repeatP parseTx n).bind fun txs =>
  Parser.pure ⟨header, txs⟩

/-- Modelled from the spec: the call `blk.Deserialize(bytes.NewReader(payload))`
of line 96, whose code is missing from the sources: the block of section 4.3
decoded from the front of the payload, or a decode failure. -/
def MsgBlock.Deserialize (payload : List Nat) : Option MsgBlock :=
  (parseBlock payload).map Prod.fst

/-- Modelled from the spec: byte layout of one input (section 4.3 step 3c; the
encoder is missing from the sources). -/
def TxIn.serialize (i : TxIn) : List Nat :=
  i.PreviousOutPoint.Hash ++ leBytes 4 i.PreviousOutPoint.Index ++
    writeVarInt i.SignatureScript.length ++ i.SignatureScript ++ leBytes 4 i.Sequence

/-- Modelled from the spec: byte layout of one output (section 4.3 step 3d; the
encoder is missing from the sources). -/
def TxOut.serialize (o : TxOut) : List Nat :=
  leBytes 8 o.Value ++ writeVarInt o.PkScript.length ++ o.PkScript

/-- Modelled from the spec: byte layout of a list of elements laid end to end
(section 4.3; the encoder is missing from the sources). -/
def serializeAll {α : Type} (f : α → List Nat) : List α → List Nat
  | [] => []
  | a :: l => f a ++ serializeAll f l

/-- Modelled from the spec: byte layout of one witness stack (section 4.3 step
3e; the encoder is missing from the sources). -/
def serializeStack (stack : List (List Nat)) : List Nat :=
  writeVarInt stack.length ++ serializeAll (fun item => writeVarInt item.length ++ item) stack

/-- Modelled from the spec: `serialize(tx, excludeWitness)` of section 3, whose
code is missing from the sources: the layout of section 4.3 step 3, the marker
`0x00, 0x01` and the witness stacks being written only when the transaction
has witness data and `excludeWitness` is false. -/
def MsgTx.serialize (tx : MsgTx) (excludeWitness : Bool) : List Nat :=
  let ins := writeVarInt tx.TxIn.length ++ serializeAll TxIn.serialize tx.TxIn
  let outs := writeVarInt tx.TxOut.length ++ serializeAll TxOut.serialize tx.TxOut
  match excludeWitness, tx.Witness with
  | false, some wit =>
    leBytes 4 tx.Version ++ [0, 1] ++ ins ++ outs ++ serializeAll serializeStack wit ++
      leBytes 4 tx.LockTime
  | _, _ => leBytes 4 tx.Version ++ ins ++ outs ++ leBytes 4 tx.LockTime

/-- Modelled from the spec: the transaction id `tx.TxHash()` of line 104, whose
code is missing from the sources:
`TxId = doubleHash(serialize(tx, excludeWitness=true))`, for a 256-bit hash
function `sha256`. -/
def MsgTx.TxHash (sha256 : List Nat → List Nat) (tx : MsgTx) : List Nat :=
  sha256 (sha256 (tx.serialize true))

/-- Modelled from the spec: byte layout of the 80-byte header (section 4.3 step
1; the encoder is missing from the sources). -/
def BlockHeader.serialize (h : BlockHeader) : List Nat :=
  leBytes 4 h.Version ++ h.PrevBlock ++ h.MerkleRoot ++ leBytes 4 h.Timestamp ++
    leBytes 4 h.Bits ++ leBytes 4 h.Nonce

/-- Modelled from the spec: byte layout of a block whose transactions are all
written with `excludeWitness` (section 4.3; the encoder is missing from the
sources). -/
def MsgBlock.serialize (blk : MsgBlock) (excludeWitness : Bool) : List Nat :=
  blk.Header.serialize ++ writeVarInt blk.Transactions.length ++
    serializeAll (fun tx => MsgTx.serialize tx excludeWitness) blk.Transactions

/-! ## Vocabulary of the statements -/

/-- The key `[8]byte{0, 0, 0, 0, 0, 0, 0, 0}` of line 38. -/
def zeroKey : List Nat := List.replicate 8 0

/-- Lengths of the reads the frame loop asks of `blockReader` on a stream made
of the given payloads and a clean end: magic, length and payload of each frame,
then the magic read that meets the end of the stream. -/
def frameReads : List (List Nat) → List Nat
  | [] => [4]
  | p :: ps => 4 :: 4 :: p.length :: frameReads ps

/-- A stream cut part-way through a frame: `cut` is a non-empty, proper initial
piece of a frame carrying the mainnet magic. -/
def Truncated (cut : List Nat) : Prop :=
  cut ≠ [] ∧ ∃ p rest, p.length < 2 ^ 32 ∧ rest ≠ [] ∧ cut ++ rest = frame MainnetMagic p

/-- A decoding step is stable when bytes added after the payload change nothing
but the unread rest. -/
def Stable {α : Type} (p : Parser α) : Prop :=
  ∀ s a r e, p s = some (a, r) → p (s ++ e) = some (a, r ++ e)

/-- The fields of an input fit their wire widths. -/
def TxIn.WF (i : TxIn) : Prop :=
  i.PreviousOutPoint.Hash.length = 32 ∧ i.PreviousOutPoint.Index < 2 ^ 32 ∧
    i.SignatureScript.length < 2 ^ 64 ∧ i.Sequence < 2 ^ 32

/-- The fields of an output fit their wire widths. -/
def TxOut.WF (o : TxOut) : Prop :=
  o.Value < 2 ^ 64 ∧ o.PkScript.length < 2 ^ 64

/-- The items of a witness stack can be counted and measured in 64 bits. -/
def stackWF (stack : List (List Nat)) : Prop :=
  stack.length < 2 ^ 64 ∧ ∀ item ∈ stack, item.length < 2 ^ 64

/-- The fields of a transaction fit their wire widths, and witness data, when
present, has one stack per input. -/
def MsgTx.WF (tx : MsgTx) : Prop :=
  tx.Version < 2 ^ 32 ∧ tx.LockTime < 2 ^ 32 ∧ tx.TxIn.length < 2 ^ 64 ∧
    tx.TxOut.length < 2 ^ 64 ∧ (∀ i ∈ tx.TxIn, i.WF) ∧ (∀ o ∈ tx.TxOut, o.WF) ∧
    ∀ w, tx.Witness = some w → w.length = tx.TxIn.length ∧ ∀ stack ∈ w, stackWF stack

/-- The fields of a header fit their wire widths. -/
def BlockHeader.WF (h : BlockHeader) : Prop :=
  h.Version < 2 ^ 32 ∧ h.PrevBlock.length = 32 ∧ h.MerkleRoot.length = 32 ∧
    h.Timestamp < 2 ^ 32 ∧ h.Bits < 2 ^ 32 ∧ h.Nonce < 2 ^ 32

/-- The fields of a block fit their wire widths. -/
def MsgBlock.WF (blk : MsgBlock) : Prop :=
  blk.Header.WF ∧ blk.Transactions.length < 2 ^ 64 ∧ ∀ tx ∈ blk.Transactions, tx.WF

/-- The transaction as it is decoded from the serialization without witness
data. -/
def MsgTx.stripWitness (tx : MsgTx) : MsgTx := { tx with Witness := none }

/-- Bytes returned by an `xorReader` that starts at `pos = 0` over a file
holding `input`, for one way of splitting the reads: `sched` fixes the counts
the file returns and `sizes` the buffer lengths of the calls. -/
def xorStream (key input sched sizes : List Nat) : List Nat :=
  readSeq (xorReader.Read File.Read) ⟨⟨input, sched⟩, key, 0⟩ sizes

/-! ## Concrete inputs -/

/-- An obfuscation key. -/
def exampleKey : List Nat := [0xA1, 0x5C, 0x33, 0x07, 0xEE, 0x10, 0x9B, 0x42]

/-- A header with all fields zero except the version. -/
def exampleHeader : BlockHeader := ⟨1, List.replicate 32 0, List.replicate 32 0, 0, 0, 0⟩

/-- A coinbase-like transaction: one input, one output of 5000000000. -/
def coinbaseTx : MsgTx :=
  ⟨1, [⟨⟨List.replicate 32 0, 0xFFFFFFFF⟩, [], 0xFFFFFFFF⟩], [⟨5000000000, []⟩], none, 0⟩

/-- A block holding the coinbase-like transaction. -/
def exampleBlock : MsgBlock := ⟨exampleHeader, [coinbaseTx]⟩

/-- The 141 bytes of `exampleBlock`. -/
def examplePayload : List Nat := exampleBlock.serialize true

/-- A block without transactions. -/
def emptyBlock : MsgBlock := ⟨exampleHeader, []⟩

/-- A two-frame block file: a good frame, then a frame whose magic differs from
the mainnet magic in one bit. -/
def twoFrameFile : List Nat :=
  frame MainnetMagic examplePayload ++ frame 0xD9B4BEF8 examplePayload

/-- No key file, and the two-frame block file. -/
def twoFrameEnv : Env MsgBlock :=
  ⟨Except.error (Error.errno 2), Except.error (Error.errno 2),
    Except.ok ⟨twoFrameFile, []⟩, MsgBlock.Deserialize⟩

/-- No key file, and a block file of one frame with an empty payload. -/
def emptyPayloadEnv : Env MsgBlock :=
  ⟨Except.error (Error.errno 2), Except.error (Error.errno 2),
    Except.ok ⟨frames [[]], []⟩, MsgBlock.Deserialize⟩

/-- The 81 bytes of `emptyBlock` followed by one more byte. -/
def trailingPayload : List Nat := emptyBlock.serialize true ++ [0xAA]

/-- No key file, and a block file of one frame holding `trailingPayload`. -/
def trailingEnv : Env MsgBlock :=
  ⟨Except.error (Error.errno 2), Except.error (Error.errno 2),
    Except.ok ⟨frames [trailingPayload], []⟩, MsgBlock.Deserialize⟩

/-- A transaction without inputs, with one output of value 5 and (empty)
witness data. -/
def noInputTx : MsgTx := ⟨1, [], [⟨5, []⟩], some [], 0⟩

/-- A block holding `noInputTx`. -/
def noInputBlock : MsgBlock := ⟨exampleHeader, [noInputTx]⟩

/-- A transaction with two inputs and two witness items per input. -/
def segwitTx : MsgTx :=
  ⟨2, [⟨⟨List.replicate 32 7, 1⟩, [0x51], 0xFFFFFFFE⟩, ⟨⟨List.replicate 32 9, 0⟩, [], 5⟩],
    [⟨1234, [0x6A]⟩], some [[[1, 2, 3], [4]], [[], [5, 6]]], 99⟩

/-- A block holding `coinbaseTx` and `segwitTx`. -/
def segwitBlock : MsgBlock := ⟨exampleHeader, [coinbaseTx, segwitTx]⟩

/-- A key file of eight bytes that cannot be opened (error 13), and the
two-frame block file. -/
def unreadableKeyEnv : Env MsgBlock :=
  ⟨Except.ok 8, Except.error (Error.errno 13), Except.ok ⟨twoFrameFile, []⟩,
    MsgBlock.Deserialize⟩

/-- A key file holding `exampleKey` and two more bytes, and a block file holding
the frames of `examplePayload` twice, obfuscated with that key and read in
short pieces. -/
def obfuscatedEnv : Env MsgBlock :=
  ⟨Except.ok 10, Except.ok ⟨exampleKey ++ [1, 2], []⟩,
    Except.ok ⟨xorAt exampleKey 0 (frames [examplePayload, examplePayload]), [0, 2, 99, 6]⟩,
    MsgBlock.Deserialize⟩

set_option maxRecDepth 1000000

/-! ## The XOR transform position by position -/

theorem and7 (n : Nat) : (n % 2 ^ 64) &&& 7 = n % 8 := by
  have h := Nat.and_pow_two_sub_one_eq_mod (n % 2 ^ 64) 3
  have h2 : (2 : Nat) ^ 3 - 1 = 7 := by norm_num
  rw [h2] at h
  rw [h]
  exact Nat.mod_mod_of_dvd n (by norm_num)

theorem xorLoop_eq_xorAt (key : List Nat) (pos : Nat) (p : List Nat) (i : Nat) :
    xorLoop key pos i p = xorAt key (pos + i) p := by
  induction p generalizing i with
  | nil => simp [xorLoop, xorAt]
  | cons b p ih =>
    simp only [xorLoop, xorAt, and7, ih]
    rfl

theorem xorAt_congr (key : List Nat) (l : List Nat) (o o2 : Nat) (h : o % 8 = o2 % 8) :
    xorAt key o l = xorAt key o2 l := by
  induction l generalizing o o2 with
  | nil => simp [xorAt]
  | cons b l ih =>
    simp only [xorAt, h]
    rw [ih (o + 1) (o2 + 1) (by omega)]

theorem xorAt_append (key : List Nat) (a b : List Nat) (o : Nat) :
    xorAt key o (a ++ b) = xorAt key o a ++ xorAt key (o + a.length) b := by
  induction a generalizing o with
  | nil => simp [xorAt]
  | cons x a ih =>
    rw [List.cons_append, xorAt, xorAt, ih, List.length_cons,
      show o + 1 + a.length = o + (a.length + 1) by omega, List.cons_append]

theorem xorAt_length (key : List Nat) (l : List Nat) (o : Nat) :
    (xorAt key o l).length = l.length := by
  induction l generalizing o with
  | nil => simp [xorAt]
  | cons x a ih => simp [xorAt, ih]

theorem xorAt_getElem? (key : List Nat) (l : List Nat) (o i : Nat) :
    (xorAt key o l)[i]? = (l[i]?).map (fun b => b ^^^ key.getD ((o + i) % 8) 0) := by
  induction l generalizing o i with
  | nil => simp [xorAt]
  | cons x a ih =>
    cases i with
    | zero => simp [xorAt]
    | succ i =>
      simp only [xorAt, List.getElem?_cons_succ, ih]
      rw [show o + 1 + i = o + (i + 1) by omega]

theorem xorAt_xorAt (key : List Nat) (l : List Nat) (o : Nat) :
    xorAt key o (xorAt key o l) = l := by
  induction l generalizing o with
  | nil => simp [xorAt]
  | cons x a ih =>
    simp only [xorAt, ih, Nat.xor_assoc, Nat.xor_self, Nat.xor_zero]

theorem xorAt_take (key : List Nat) (l : List Nat) (o n : Nat) :
    (xorAt key o l).take n = xorAt key o (l.take n) := by
  induction l generalizing o n with
  | nil => simp [xorAt]
  | cons x a ih =>
    cases n with
    | zero => simp [xorAt]
    | succ n => simp [xorAt, ih]

theorem readSeq_xor {σ : Type} (rd : σ → Nat → ReadResult σ) (sizes : List Nat)
    (x : xorReader σ) :
    readSeq (xorReader.Read rd) x sizes = xorAt x.key x.pos (readSeq rd x.r sizes) := by
  induction sizes generalizing x with
  | nil => simp [readSeq, xorAt]
  | cons len sizes ih =>
    simp only [readSeq, xorAt_append]
    rw [ih]
    simp only [xorReader.Read, xorLoop_eq_xorAt, Nat.add_zero]
    congr 1
    apply xorAt_congr
    omega

theorem readSeq_File (sizes : List Nat) (f : File) :
    ∃ n, readSeq File.Read f sizes = f.data.take n := by
  induction sizes generalizing f with
  | nil => exact ⟨0, by simp [readSeq]⟩
  | cons len sizes ih =>
    simp only [readSeq, File.Read]
    split
    · exact ih f
    · split
      · rename_i h; exact ⟨0, by simpa [h] using (ih f).choose_spec.trans (by simp [h])⟩
      · obtain ⟨n, hn⟩ := ih ⟨f.data.drop (f.chunk len), f.sched.tail⟩
        refine ⟨f.chunk len + n, ?_⟩
        simp only [hn]
        rw [List.take_add]

/-! ## The reader stack delivers the deobfuscated stream -/

theorem take_ne_nil {l : List Nat} {n : Nat} (hn : 0 < n) (hl : l ≠ []) : l.take n ≠ [] := by
  cases l with
  | nil => exact absurd rfl hl
  | cons a t =>
    cases n with
    | zero => omega
    | succ n => simp

theorem File_stream : StreamReader File.Read File.data (fun _ => True) := by
  intro f len _ hlen
  have h0 : len ≠ 0 := by omega
  by_cases hd : f.data = []
  · simp [File.Read, h0, hd]
  · have hc : 0 < f.chunk len := by
      unfold File.chunk; split <;> omega
    have hc2 : f.chunk len ≤ len := by
      unfold File.chunk; split <;> omega
    have hl : 0 < f.data.length := List.length_pos.mpr hd
    simp only [File.Read, h0, hd, if_false]
    refine ⟨trivial, ?_, List.take_append_drop _ _, fun h => h.elim,
      fun _ => ⟨take_ne_nil hc hd, trivial⟩⟩
    rw [List.length_take]; omega

theorem bufio_stream {σ : Type} (read : σ → Nat → ReadResult σ) (str : σ → List Nat)
    (inv : σ → Prop) (h : StreamReader read str inv) :
    StreamReader (bufio.Reader.Read read) (bufio.Reader.stream str) (bufio.Reader.inv inv) := by
  intro b len hb hlen
  obtain ⟨he, hi⟩ := hb
  have h0 : len ≠ 0 := by omega
  by_cases hbuf : b.buf = []
  · by_cases hbig : defaultBufSize ≤ len
    · obtain ⟨h1, h2, h3, h4, h5⟩ := h b.rd len hi hlen
      simp only [bufio.Reader.Read, h0, hbuf, he, hbig, if_true, if_false, ne_eq,
        not_true_eq_false, bufio.Reader.stream, bufio.Reader.inv, List.nil_append]
      exact ⟨⟨trivial, h1⟩, h2, h3, h4, h5⟩
    · obtain ⟨h1, h2, h3, h4, h5⟩ := h b.rd defaultBufSize hi (by decide)
      by_cases hr : (read b.rd defaultBufSize).bytes = []
      · have hs : str b.rd = [] := by
          by_contra hne
          exact (h5 hne).1 hr
        simp only [bufio.Reader.Read, h0, hbuf, he, hbig, hr, if_true, if_false, ne_eq,
          not_true_eq_false, bufio.Reader.stream, bufio.Reader.inv, List.nil_append]
        refine ⟨⟨trivial, h1⟩, by simp, ?_, fun _ => h4 hs, fun hne => absurd hs hne⟩
        rw [← h3, hr]; rfl
      · have hs : str b.rd ≠ [] := by
          intro hs
          rw [hs] at h3
          exact hr (List.append_eq_nil.mp h3).1
        simp only [bufio.Reader.Read, h0, hbuf, he, hbig, hr, if_true, if_false, ne_eq,
          not_true_eq_false, bufio.Reader.stream, bufio.Reader.inv, List.nil_append]
        refine ⟨⟨(h5 hs).2, h1⟩, ?_, ?_, fun hh => absurd hh hs, fun _ => ⟨?_, trivial⟩⟩
        · rw [List.length_take]; omega
        · rw [← List.append_assoc, List.take_append_drop, h3]
        · exact take_ne_nil hlen hr
  · have hl : 0 < b.buf.length := List.length_pos.mpr hbuf
    simp only [bufio.Reader.Read, h0, hbuf, if_false, bufio.Reader.stream, bufio.Reader.inv]
    refine ⟨⟨he, hi⟩, ?_, ?_, ?_, fun _ => ⟨?_, trivial⟩⟩
    · rw [List.length_take]; omega
    · rw [← List.append_assoc, List.take_append_drop]
    · intro hh; exact absurd (List.append_eq_nil.mp hh).1 hbuf
    · exact take_ne_nil hlen hbuf

theorem xorAt_eq_nil (key : List Nat) (o : Nat) (l : List Nat) :
    xorAt key o l = [] ↔ l = [] := by
  cases l <;> simp [xorAt]

theorem xor_stream {σ : Type} (read : σ → Nat → ReadResult σ) (str : σ → List Nat)
    (inv : σ → Prop) (h : StreamReader read str inv) :
    StreamReader (xorReader.Read read) (xorReader.stream str)
      (fun x : xorReader σ => inv x.r) := by
  intro x len hi hlen
  obtain ⟨h1, h2, h3, h4, h5⟩ := h x.r len hi hlen
  simp only [xorReader.Read, xorReader.stream, xorLoop_eq_xorAt, Nat.add_zero, xorAt_length,
    xorAt_eq_nil, ne_eq]
  refine ⟨h1, h2, ?_, h4, h5⟩
  rw [← h3, xorAt_append]
  congr 1
  apply xorAt_congr
  omega

theorem blockReader_stream : StreamReader blockReaderRead BlockReader.stream BlockReader.inv :=
  bufio_stream _ _ _ (xor_stream _ _ _ (bufio_stream _ _ _ File_stream))

theorem readLoop_err {σ : Type} (read : σ → Nat → ReadResult σ) (len min fuel : Nat) (s : σ)
    (got : List Nat) (e : Error) :
    io.readLoop read len min fuel s got (some e) = some ⟨got, some e, s⟩ := by
  cases fuel <;> simp [io.readLoop]

theorem readLoop_spec {σ : Type} (read : σ → Nat → ReadResult σ) (str : σ → List Nat)
    (inv : σ → Prop) (h : StreamReader read str inv) (len : Nat) :
    ∀ (fuel : Nat) (s : σ) (got : List Nat), inv s → got.length ≤ len →
      min (len - got.length) (str s).length + 1 ≤ fuel →
      ∃ res, io.readLoop read len len fuel s got none = some res ∧
        res.bytes = got ++ (str s).take (len - got.length) ∧
        str res.state = (str s).drop (len - got.length) ∧ inv res.state ∧
        res.err = if len - got.length ≤ (str s).length then none else some Error.EOF := by
  intro fuel
  induction fuel with
  | zero => intro s got _ _ hf; omega
  | succ fuel ih =>
    intro s got hi hg hf
    by_cases hlt : got.length < len
    · have hpos : 0 < len - got.length := by omega
      obtain ⟨h1, h2, h3, h4, h5⟩ := h s (len - got.length) hi hpos
      rw [io.readLoop]
      simp only [hlt, true_and, if_true]
      by_cases hs : str s = []
      · rw [h4 hs, readLoop_err]
        have hb : (read s (len - got.length)).bytes = [] := by
          rw [hs] at h3; exact (List.append_eq_nil.mp h3).1
        have hst : str (read s (len - got.length)).state = [] := by
          rw [hs] at h3; exact (List.append_eq_nil.mp h3).2
        refine ⟨_, rfl, ?_, ?_, h1, ?_⟩
        · simp [hb, hs]
        · simp [hst, hs]
        · simp only [hs, List.length_nil]
          rw [if_neg (by omega)]
      · obtain ⟨hne, herr⟩ := h5 hs
        rw [herr]
        have hk : 0 < (read s (len - got.length)).bytes.length := List.length_pos.mpr hne
        have hlen : (str s).length = (read s (len - got.length)).bytes.length +
            (str (read s (len - got.length)).state).length := by
          rw [← h3, List.length_append]
        obtain ⟨res, hr, hb, hst, hinv, herr2⟩ :=
          ih (read s (len - got.length)).state (got ++ (read s (len - got.length)).bytes) h1
            (by rw [List.length_append]; omega) (by rw [List.length_append]; omega)
        refine ⟨res, hr, ?_, ?_, hinv, ?_⟩
        · rw [hb, List.append_assoc]
          congr 1
          rw [List.length_append]
          conv_rhs => rw [← h3]
          rw [List.take_append_eq_append_take]
          rw [List.take_of_length_le h2]
          congr 2
          omega
        · rw [hst, List.length_append]
          conv_rhs => rw [← h3]
          rw [List.drop_append_eq_append_drop]
          rw [List.drop_of_length_le h2, List.nil_append]
          congr 1
          omega
        · rw [herr2, List.length_append]
          by_cases hc : len - got.length ≤ (str s).length
          · rw [if_pos hc, if_pos (by omega)]
          · rw [if_neg hc, if_neg (by omega)]
    · have hge : len - got.length = 0 := by omega
      rw [io.readLoop]
      simp only [hlt, false_and, if_false]
      refine ⟨_, rfl, ?_, ?_, hi, ?_⟩
      · simp [hge]
      · simp [hge]
      · simp [hge]

/-- Result of `io.ReadFull` on a stream reader. -/
theorem ReadFull_spec {σ : Type} (read : σ → Nat → ReadResult σ) (str : σ → List Nat)
    (inv : σ → Prop) (h : StreamReader read str inv) (len fuel : Nat) (s : σ) (hi : inv s)
    (hf : min len (str s).length + 1 ≤ fuel) :
    ∃ res, io.ReadFull read fuel s len = some res ∧
      res.bytes = (str s).take len ∧ str res.state = (str s).drop len ∧ inv res.state ∧
      res.err = if len ≤ (str s).length then none
        else if str s = [] then some Error.EOF else some Error.ErrUnexpectedEOF := by
  obtain ⟨res, hr, hb, hst, hinv, herr⟩ :=
    readLoop_spec read str inv h len fuel s [] hi (by simp) (by simpa using hf)
  simp only [List.length_nil, Nat.sub_zero, List.nil_append] at hb hst herr
  simp only [io.ReadFull, io.ReadAtLeast, Nat.lt_irrefl, if_false, hr, Option.map_some']
  by_cases hc : len ≤ (str s).length
  · have hbl : res.bytes.length = len := by rw [hb, List.length_take]; omega
    refine ⟨_, rfl, ?_⟩
    simp only [hbl, Nat.le_refl, if_true, hc]
    exact ⟨hb, hst, hinv, trivial⟩
  · have hbl : res.bytes.length = (str s).length := by rw [hb, List.length_take]; omega
    rw [if_neg hc] at herr
    refine ⟨_, rfl, ?_⟩
    rw [if_neg (by omega)]
    by_cases hs : str s = []
    · have h0 : res.bytes.length = 0 := by rw [hbl, hs]; rfl
      rw [if_neg (by omega), if_neg hc, if_pos hs]
      exact ⟨hb, hst, hinv, herr⟩
    · have hp : 0 < res.bytes.length := by rw [hbl]; exact List.length_pos.mpr hs
      rw [if_pos ⟨hp, herr⟩, if_neg hc, if_neg hs]
      exact ⟨hb, hst, hinv, rfl⟩

/-! ## Little-endian fields -/

theorem Uint32_bytes (a b c d : Nat) (ha : a < 256) (hb : b < 256) (hc : c < 256)
    (hd : d < 256) :
    binary.LittleEndian.Uint32 [a, b, c, d] = a + 2 ^ 8 * b + 2 ^ 16 * c + 2 ^ 24 * d := by
  have e1 : a ||| b <<< 8 = 2 ^ 8 * b + a := by
    rw [Nat.shiftLeft_eq, Nat.or_comm, Nat.mul_comm b]
    exact (Nat.mul_add_lt_is_or (show a < 2 ^ 8 by omega) b).symm
  have e2 : (2 ^ 8 * b + a) ||| c <<< 16 = 2 ^ 16 * c + (2 ^ 8 * b + a) := by
    rw [Nat.shiftLeft_eq, Nat.or_comm, Nat.mul_comm c]
    exact (Nat.mul_add_lt_is_or (show 2 ^ 8 * b + a < 2 ^ 16 by omega) c).symm
  have e3 : (2 ^ 16 * c + (2 ^ 8 * b + a)) ||| d <<< 24
      = 2 ^ 24 * d + (2 ^ 16 * c + (2 ^ 8 * b + a)) := by
    rw [Nat.shiftLeft_eq, Nat.or_comm, Nat.mul_comm d]
    exact (Nat.mul_add_lt_is_or (show 2 ^ 16 * c + (2 ^ 8 * b + a) < 2 ^ 24 by omega) d).symm
  simp only [binary.LittleEndian.Uint32, List.getD_cons_zero, List.getD_cons_succ]
  rw [e1, e2, e3]
  omega

theorem Uint32_le32 (n : Nat) (h : n < 2 ^ 32) : binary.LittleEndian.Uint32 (le32 n) = n := by
  unfold le32
  rw [Uint32_bytes _ _ _ _ (Nat.mod_lt _ (by norm_num)) (Nat.mod_lt _ (by norm_num))
    (Nat.mod_lt _ (by norm_num)) (Nat.mod_lt _ (by norm_num))]
  omega

theorem le32_length (n : Nat) : (le32 n).length = 4 := rfl

/-! ## One iteration of the frame loop -/

theorem binRead_full (br : BlockReader) (hi : br.inv) (fuel : Nat)
    (h4 : 4 ≤ br.stream.length) (hf : 5 ≤ fuel) :
    ∃ br1 : BlockReader, br1.inv ∧ br1.stream = br.stream.drop 4 ∧
      binary.Read blockReaderRead fuel br 0 =
        some (binary.LittleEndian.Uint32 (br.stream.take 4), none, br1) := by
  obtain ⟨res, hr, hb, hst, hinv, herr⟩ :=
    ReadFull_spec blockReaderRead BlockReader.stream BlockReader.inv blockReader_stream 4 fuel
      br hi (by omega)
  rw [if_pos h4] at herr
  refine ⟨res.state, hinv, hst, ?_⟩
  simp only [binary.Read, hr, Option.map_some', herr, hb]

theorem binRead_eof (br : BlockReader) (hi : br.inv) (fuel : Nat)
    (hs : br.stream = []) (hf : 1 ≤ fuel) :
    ∃ br1 : BlockReader,
      binary.Read blockReaderRead fuel br 0 = some (0, some Error.EOF, br1) := by
  obtain ⟨res, hr, hb, hst, hinv, herr⟩ :=
    ReadFull_spec blockReaderRead BlockReader.stream BlockReader.inv blockReader_stream 4 fuel
      br hi (by rw [hs]; simpa using hf)
  rw [if_neg (by rw [hs]; simp), if_pos hs] at herr
  refine ⟨res.state, ?_⟩
  simp only [binary.Read, hr, Option.map_some', herr]

theorem binRead_short (br : BlockReader) (hi : br.inv) (fuel : Nat)
    (hs : br.stream ≠ []) (h4 : br.stream.length < 4) (hf : 5 ≤ fuel) :
    ∃ br1 : BlockReader,
      binary.Read blockReaderRead fuel br 0 = some (0, some Error.ErrUnexpectedEOF, br1) := by
  obtain ⟨res, hr, hb, hst, hinv, herr⟩ :=
    ReadFull_spec blockReaderRead BlockReader.stream BlockReader.inv blockReader_stream 4 fuel
      br hi (by omega)
  rw [if_neg (by omega), if_neg hs] at herr
  refine ⟨res.state, ?_⟩
  simp only [binary.Read, hr, Option.map_some', herr]

theorem frameLoop_eof {β : Type} (D : List Nat → Option β) (br : BlockReader) (hi : br.inv)
    (hs : br.stream = []) (fuel : Nat) (hf : 2 ≤ fuel) :
    frameLoop D fuel br = some ⟨[4], [], [], Halt.returned none⟩ := by
  obtain ⟨fuel, rfl⟩ : ∃ k, fuel = k + 1 := ⟨fuel - 1, by omega⟩
  obtain ⟨br1, hr⟩ := binRead_eof br hi fuel hs (by omega)
  rw [frameLoop, hr]
  simp

theorem frameLoop_badMagic {β : Type} (D : List Nat → Option β) (br : BlockReader)
    (hi : br.inv) (h4 : 4 ≤ br.stream.length)
    (hm : binary.LittleEndian.Uint32 (br.stream.take 4) ≠ MainnetMagic)
    (fuel : Nat) (hf : 6 ≤ fuel) :
    ∃ off, frameLoop D fuel br = some ⟨[4], [], [],
      Halt.fatalBadMagic (binary.LittleEndian.Uint32 (br.stream.take 4)) off⟩ := by
  obtain ⟨fuel, rfl⟩ : ∃ k, fuel = k + 1 := ⟨fuel - 1, by omega⟩
  obtain ⟨br1, _, _, hr⟩ := binRead_full br hi fuel h4 (by omega)
  refine ⟨(br1.rd.pos + 2 ^ 64 - 4) % 2 ^ 64, ?_⟩
  rw [frameLoop, hr]
  simp [hm]

theorem frameLoop_shortMagic {β : Type} (D : List Nat → Option β) (br : BlockReader)
    (hi : br.inv) (h0 : br.stream ≠ []) (h4 : br.stream.length < 4)
    (fuel : Nat) (hf : 6 ≤ fuel) :
    ∃ off, frameLoop D fuel br = some ⟨[4], [], [], Halt.fatalBadMagic 0 off⟩ := by
  obtain ⟨fuel, rfl⟩ : ∃ k, fuel = k + 1 := ⟨fuel - 1, by omega⟩
  obtain ⟨br1, hr⟩ := binRead_short br hi fuel h0 h4 (by omega)
  refine ⟨(br1.rd.pos + 2 ^ 64 - 4) % 2 ^ 64, ?_⟩
  rw [frameLoop, hr]
  simp [MainnetMagic]

theorem take4_le32 (n : Nat) (t : List Nat) : (le32 n ++ t).take 4 = le32 n := by
  simp [le32]

theorem drop4_le32 (n : Nat) (t : List Nat) : (le32 n ++ t).drop 4 = t := by
  simp [le32]

theorem frameLoop_shortLength {β : Type} (D : List Nat → Option β) (br : BlockReader)
    (hi : br.inv) (t : List Nat) (hs : br.stream = le32 MainnetMagic ++ t)
    (ht : t.length < 4) (fuel : Nat) (hf : 6 ≤ fuel) :
    ∃ e, frameLoop D fuel br = some ⟨[4, 4], [], [], Halt.fatalLength e⟩ := by
  obtain ⟨fuel, rfl⟩ : ∃ k, fuel = k + 1 := ⟨fuel - 1, by omega⟩
  have hl : br.stream.length = 4 + t.length := by rw [hs, List.length_append, le32_length]
  obtain ⟨br1, hi1, hs1, hr⟩ := binRead_full br hi fuel (by omega) (by omega)
  rw [hs, take4_le32, Uint32_le32 MainnetMagic (by decide)] at hr
  rw [hs, drop4_le32] at hs1
  by_cases he : br1.stream = []
  · obtain ⟨br2, hr2⟩ := binRead_eof br1 hi1 fuel he (by omega)
    refine ⟨Error.EOF, ?_⟩
    rw [frameLoop, hr]
    simp [hr2]
  · obtain ⟨br2, hr2⟩ := binRead_short br1 hi1 fuel he (by rw [hs1]; omega) (by omega)
    refine ⟨Error.ErrUnexpectedEOF, ?_⟩
    rw [frameLoop, hr]
    simp [hr2]

theorem frameLoop_shortPayload {β : Type} (D : List Nat → Option β) (br : BlockReader)
    (hi : br.inv) (n : Nat) (t : List Nat) (hn : n < 2 ^ 32)
    (hs : br.stream = le32 MainnetMagic ++ (le32 n ++ t))
    (ht : t.length < n) (fuel : Nat) (hf : br.stream.length + 2 ≤ fuel) :
    ∃ e, frameLoop D fuel br = some ⟨[4, 4, n], [], [], Halt.fatalPayload e⟩ := by
  obtain ⟨fuel, rfl⟩ : ∃ k, fuel = k + 1 := ⟨fuel - 1, by omega⟩
  have hl : br.stream.length = 4 + (4 + t.length) := by
    rw [hs, List.length_append, List.length_append, le32_length, le32_length]
  obtain ⟨br1, hi1, hs1, hr⟩ := binRead_full br hi fuel (by omega) (by omega)
  rw [hs, take4_le32, Uint32_le32 MainnetMagic (by decide)] at hr
  rw [hs, drop4_le32] at hs1
  have hl1 : br1.stream.length = 4 + t.length := by
    rw [hs1, List.length_append, le32_length]
  obtain ⟨br2, hi2, hs2, hr2⟩ := binRead_full br1 hi1 fuel (by omega) (by omega)
  rw [hs1, take4_le32, Uint32_le32 n hn] at hr2
  rw [hs1, drop4_le32] at hs2
  obtain ⟨res, hr3, _, _, _, herr⟩ :=
    ReadFull_spec blockReaderRead BlockReader.stream BlockReader.inv blockReader_stream n fuel
      br2 hi2 (by rw [hs2]; omega)
  have hlt : ¬ n ≤ br2.stream.length := by rw [hs2]; omega
  rw [if_neg hlt] at herr
  by_cases he : br2.stream = []
  · rw [if_pos he] at herr
    refine ⟨Error.EOF, ?_⟩
    rw [frameLoop, hr]
    simp [hr2, hr3, herr]
  · rw [if_neg he] at herr
    refine ⟨Error.ErrUnexpectedEOF, ?_⟩
    rw [frameLoop, hr]
    simp [hr2, hr3, herr]

theorem frameLoop_frame {β : Type} (D : List Nat → Option β) (br : BlockReader)
    (hi : br.inv) (p t : List Nat) (hn : p.length < 2 ^ 32)
    (hs : br.stream = frame MainnetMagic p ++ t) (fuel : Nat)
    (hf : br.stream.length + 1 ≤ fuel) :
    ∃ br3 : BlockReader, br3.inv ∧ br3.stream = t ∧
      frameLoop D (fuel + 1) br =
        match D p with
        | none => some ⟨[4, 4, p.length], [p], [], Halt.fatalDecode⟩
        | some blk =>
          (frameLoop D fuel br3).map fun run =>
            ⟨4 :: 4 :: p.length :: run.reads, p :: run.payloads, blk :: run.blocks, run.halt⟩ := by
  have hs0 : br.stream = le32 MainnetMagic ++ (le32 p.length ++ (p ++ t)) := by
    rw [hs, frame, List.append_assoc, List.append_assoc]
  have hl : br.stream.length = 4 + (4 + (p.length + t.length)) := by
    rw [hs0]; simp only [List.length_append, le32_length]
  obtain ⟨br1, hi1, hs1, hr⟩ := binRead_full br hi fuel (by omega) (by omega)
  rw [hs0, take4_le32, Uint32_le32 MainnetMagic (by decide)] at hr
  rw [hs0, drop4_le32] at hs1
  have hl1 : br1.stream.length = 4 + (p.length + t.length) := by
    rw [hs1]; simp only [List.length_append, le32_length]
  obtain ⟨br2, hi2, hs2, hr2⟩ := binRead_full br1 hi1 fuel (by omega) (by omega)
  rw [hs1, take4_le32, Uint32_le32 p.length hn] at hr2
  rw [hs1, drop4_le32] at hs2
  obtain ⟨res, hr3, hb, hst, hinv, herr⟩ :=
    ReadFull_spec blockReaderRead BlockReader.stream BlockReader.inv blockReader_stream
      p.length fuel br2 hi2 (by rw [hs2, List.length_append]; omega)
  rw [hs2] at hb hst herr
  rw [List.take_left] at hb
  rw [List.drop_left] at hst
  rw [if_pos (by rw [List.length_append]; omega)] at herr
  refine ⟨res.state, hinv, hst, ?_⟩
  rw [frameLoop, hr]
  simp only [hr2, hr3, herr, hb]
  simp

/-! ## Runs of the frame loop over whole streams -/

theorem newBlockReader_inv (f : File) (key : List Nat) : (newBlockReader f key).inv :=
  ⟨rfl, rfl, trivial⟩

theorem newBlockReader_stream (f : File) (key : List Nat) :
    (newBlockReader f key).stream = xorAt key 0 f.data := by
  simp [newBlockReader, bufio.NewReader, BlockReader.stream, bufio.Reader.stream,
    xorReader.stream]

theorem frameLoop_frames {β : Type} (D : List Nat → Option β) (ps : List (List Nat)) :
    ∀ (br : BlockReader) (fuel : Nat), br.inv → br.stream = frames ps →
      (∀ p ∈ ps, p.length < 2 ^ 32) → (∀ p ∈ ps, D p ≠ none) →
      br.stream.length + 2 ≤ fuel →
      frameLoop D fuel br =
        some ⟨frameReads ps, ps, ps.filterMap D, Halt.returned none⟩ := by
  induction ps with
  | nil =>
    intro br fuel hi hs _ _ hf
    exact frameLoop_eof D br hi hs fuel (by omega)
  | cons p ps ih =>
    intro br fuel hi hs hlen hdec hf
    obtain ⟨fuel, rfl⟩ : ∃ k, fuel = k + 1 := ⟨fuel - 1, by omega⟩
    obtain ⟨br3, hi3, hs3, hr⟩ :=
      frameLoop_frame D br hi p (frames ps) (hlen p (List.mem_cons_self _ _)) hs fuel (by omega)
    have hl : br.stream.length = 8 + p.length + (frames ps).length := by
      rw [hs]; simp only [frames, frame, List.length_append, le32_length]
    obtain ⟨blk, hb⟩ := Option.ne_none_iff_exists'.mp (hdec p (List.mem_cons_self _ _))
    rw [hb] at hr
    rw [hr, ih br3 fuel hi3 hs3 (fun q hq => hlen q (List.mem_cons_of_mem _ hq))
      (fun q hq => hdec q (List.mem_cons_of_mem _ hq)) (by rw [hs3]; omega)]
    simp [frameReads, List.filterMap_cons, hb]

theorem take_frame_cut (cut rest p : List Nat) (h : cut ++ rest = frame MainnetMagic p)
    (h4 : 4 ≤ cut.length) :
    ∃ t, cut = le32 MainnetMagic ++ t ∧ t ++ rest = le32 p.length ++ p := by
  have h1 : cut = (le32 MainnetMagic ++ (le32 p.length ++ p)).take cut.length := by
    rw [← List.append_assoc, ← frame, ← h, List.take_left]
  rw [List.take_append_eq_append_take, List.take_of_length_le (by rw [le32_length]; exact h4)]
    at h1
  refine ⟨_, h1, ?_⟩
  have h2 : le32 MainnetMagic ++ ((le32 p.length ++ p).take (cut.length - (le32 MainnetMagic).length) ++ rest)
      = le32 MainnetMagic ++ (le32 p.length ++ p) := by
    rw [← List.append_assoc, ← h1, h, frame, List.append_assoc]
  exact List.append_cancel_left h2

theorem take_frame_cut2 (t rest p : List Nat) (n : Nat) (h : t ++ rest = le32 n ++ p)
    (h4 : 4 ≤ t.length) :
    ∃ u, t = le32 n ++ u ∧ u ++ rest = p := by
  have h1 : t = (le32 n ++ p).take t.length := by
    rw [← h, List.take_left]
  rw [List.take_append_eq_append_take, List.take_of_length_le (by rw [le32_length]; exact h4)]
    at h1
  refine ⟨_, h1, ?_⟩
  have h2 : le32 n ++ (p.take (t.length - (le32 n).length) ++ rest) = le32 n ++ p := by
    rw [← List.append_assoc, ← h1, h]
  exact List.append_cancel_left h2

theorem frameLoop_cut {β : Type} (D : List Nat → Option β) (br : BlockReader)
    (hi : br.inv) (cut : List Nat) (hs : br.stream = cut) (hc : Truncated cut)
    (fuel : Nat) (hf : br.stream.length + 6 ≤ fuel) :
    ∃ run, frameLoop D fuel br = some run ∧ (∀ e, run.halt ≠ Halt.returned e) ∧
      run.payloads = [] := by
  obtain ⟨hne, p, rest, hp, hrest, hcut⟩ := hc
  by_cases h4 : cut.length < 4
  · obtain ⟨off, hr⟩ := frameLoop_shortMagic D br hi (by rw [hs]; exact hne)
      (by rw [hs]; exact h4) fuel (by omega)
    exact ⟨_, hr, (by intro e h; cases h), rfl⟩
  · obtain ⟨t, ht, ht2⟩ := take_frame_cut cut rest p hcut (by omega)
    by_cases h8 : t.length < 4
    · obtain ⟨e, hr⟩ := frameLoop_shortLength D br hi t (by rw [hs, ht]) h8 fuel (by omega)
      exact ⟨_, hr, (by intro e h; cases h), rfl⟩
    · obtain ⟨u, hu, hu2⟩ := take_frame_cut2 t rest p p.length ht2 (by omega)
      have hul : u.length < p.length := by
        have := congrArg List.length hu2
        rw [List.length_append] at this
        have : 0 < rest.length := List.length_pos.mpr hrest
        omega
      obtain ⟨e, hr⟩ := frameLoop_shortPayload D br hi p.length u hp (by rw [hs, ht, hu]) hul
        fuel (by omega)
      exact ⟨_, hr, (by intro e h; cases h), rfl⟩

theorem frameLoop_truncated {β : Type} (D : List Nat → Option β) (ps : List (List Nat)) :
    ∀ (br : BlockReader) (fuel : Nat) (cut : List Nat), br.inv →
      br.stream = frames ps ++ cut → (∀ p ∈ ps, p.length < 2 ^ 32) → Truncated cut →
      br.stream.length + 6 ≤ fuel →
      ∃ run, frameLoop D fuel br = some run ∧ (∀ e, run.halt ≠ Halt.returned e) ∧
        ∃ t, run.payloads ++ t = ps := by
  induction ps with
  | nil =>
    intro br fuel cut hi hs _ hc hf
    obtain ⟨run, hr, hh, hp⟩ := frameLoop_cut D br hi cut (by simpa [frames] using hs) hc fuel hf
    exact ⟨run, hr, hh, [], by rw [hp]; rfl⟩
  | cons p ps ih =>
    intro br fuel cut hi hs hlen hc hf
    obtain ⟨fuel, rfl⟩ : ∃ k, fuel = k + 1 := ⟨fuel - 1, by omega⟩
    obtain ⟨br3, hi3, hs3, hr⟩ :=
      frameLoop_frame D br hi p (frames ps ++ cut) (hlen p (List.mem_cons_self _ _))
        (by rw [hs, frames, List.append_assoc]) fuel (by omega)
    have hl : br.stream.length = 8 + p.length + (frames ps ++ cut).length := by
      rw [hs, frames, List.append_assoc]; simp only [frame, List.length_append, le32_length]
    cases hd : D p with
    | none =>
      rw [hd] at hr
      exact ⟨_, hr, (by intro e h; cases h), ps, rfl⟩
    | some blk =>
      rw [hd] at hr
      obtain ⟨run, hrun, hh, t, ht⟩ := ih br3 fuel cut hi3 hs3
        (fun q hq => hlen q (List.mem_cons_of_mem _ hq)) hc (by rw [hs3]; omega)
      rw [hrun] at hr
      refine ⟨_, hr, hh, t, ?_⟩
      simp [ht]

/-! ## More fuel never changes a result -/

theorem readLoop_succ {σ : Type} (read : σ → Nat → ReadResult σ) (len min : Nat) :
    ∀ (fuel : Nat) (s : σ) (got : List Nat) (err : Option Error) (res : ReadResult σ),
      io.readLoop read len min fuel s got err = some res →
      io.readLoop read len min (fuel + 1) s got err = some res := by
  intro fuel
  induction fuel with
  | zero =>
    intro s got err res h
    rw [io.readLoop] at h
    rw [io.readLoop.eq_2]
    by_cases hc : got.length < min ∧ err = none
    · rw [if_pos hc] at h; cases h
    · rw [if_neg hc] at h ⊢; exact h
  | succ fuel ih =>
    intro s got err res h
    rw [io.readLoop] at h ⊢
    by_cases hc : got.length < min ∧ err = none
    · rw [if_pos hc] at h ⊢; exact ih _ _ _ _ h
    · rw [if_neg hc] at h ⊢; exact h

theorem ReadFull_succ {σ : Type} (read : σ → Nat → ReadResult σ) (fuel : Nat) (s : σ)
    (len : Nat) (res : ReadResult σ) (h : io.ReadFull read fuel s len = some res) :
    io.ReadFull read (fuel + 1) s len = some res := by
  simp only [io.ReadFull, io.ReadAtLeast, Nat.lt_irrefl, if_false] at h ⊢
  cases hl : io.readLoop read len len fuel s [] none with
  | none => rw [hl] at h; cases h
  | some r => rw [hl] at h; rw [readLoop_succ read len len fuel s [] none r hl]; exact h

theorem binRead_succ {σ : Type} (read : σ → Nat → ReadResult σ) (fuel : Nat) (s : σ)
    (data : Nat) (res : Nat × Option Error × σ) (h : binary.Read read fuel s data = some res) :
    binary.Read read (fuel + 1) s data = some res := by
  simp only [binary.Read] at h ⊢
  cases hl : io.ReadFull read fuel s 4 with
  | none => rw [hl] at h; cases h
  | some r => rw [hl] at h; rw [ReadFull_succ read fuel s 4 r hl]; exact h

theorem frameLoop_succ {β : Type} (D : List Nat → Option β) :
    ∀ (fuel : Nat) (br : BlockReader) (run : Run β),
      frameLoop D fuel br = some run → frameLoop D (fuel + 1) br = some run := by
  intro fuel
  induction fuel with
  | zero => intro br run h; rw [frameLoop] at h; cases h
  | succ fuel ih =>
    intro br run h
    rw [frameLoop] at h ⊢
    cases h1 : binary.Read blockReaderRead fuel br 0 with
    | none => rw [h1] at h; cases h
    | some r1 =>
      obtain ⟨magic, err, br1⟩ := r1
      rw [h1] at h
      rw [binRead_succ _ _ _ _ _ h1]
      simp only at h ⊢
      by_cases he : err = some Error.EOF
      · rw [if_pos he] at h ⊢; exact h
      · rw [if_neg he] at h ⊢
        by_cases hm : magic ≠ MainnetMagic
        · rw [if_pos hm] at h ⊢; exact h
        · rw [if_neg hm] at h ⊢
          cases h2 : binary.Read blockReaderRead fuel br1 0 with
          | none => rw [h2] at h; cases h
          | some r2 =>
            obtain ⟨length, err2, br2⟩ := r2
            rw [h2] at h
            rw [binRead_succ _ _ _ _ _ h2]
            cases err2 with
            | some e => exact h
            | none =>
              simp only at h ⊢
              cases h3 : io.ReadFull blockReaderRead fuel br2 length with
              | none => rw [h3] at h; cases h
              | some res =>
                rw [h3] at h
                rw [ReadFull_succ _ _ _ _ _ h3]
                simp only at h ⊢
                cases h4 : res.err with
                | some e => rw [h4] at h; exact h
                | none =>
                  rw [h4] at h
                  simp only at h ⊢
                  cases h5 : D res.bytes with
                  | none => rw [h5] at h; exact h
                  | some blk =>
                    rw [h5] at h
                    simp only at h ⊢
                    cases h6 : frameLoop D fuel res.state with
                    | none => rw [h6] at h; cases h
                    | some r => rw [h6] at h; rw [ih _ _ h6]; exact h

theorem frameLoop_mono {β : Type} (D : List Nat → Option β) (fuel fuel2 : Nat)
    (br : BlockReader) (run : Run β) (h : frameLoop D fuel br = some run) (hle : fuel ≤ fuel2) :
    frameLoop D fuel2 br = some run := by
  induction fuel2 with
  | zero =>
    have : fuel = 0 := by omega
    subst this; exact h
  | succ k ih =>
    by_cases hk : fuel ≤ k
    · exact frameLoop_succ D k br run (ih hk)
    · have : fuel = k + 1 := by omega
      subst this; exact h

theorem readBlockFile_mono {β : Type} (env : Env β) (fuel fuel2 : Nat) (run : Run β)
    (h : readBlockFile env fuel = some run) (hle : fuel ≤ fuel2) :
    readBlockFile env fuel2 = some run := by
  unfold readBlockFile at h ⊢
  cases hk : loadKey env with
  | error e => rw [hk] at h; exact h
  | ok key =>
    rw [hk] at h
    simp only at h ⊢
    cases ho : env.openBlock with
    | error e => rw [ho] at h; exact h
    | ok f =>
      rw [ho] at h
      exact frameLoop_mono _ fuel fuel2 _ run h hle

/-! ## The decoder ignores what follows the block -/

theorem stable_pure {α : Type} (a : α) : Stable (Parser.pure a) := by
  intro s b r e h
  simp only [Parser.pure, Option.some.injEq, Prod.mk.injEq] at h ⊢
  exact ⟨h.1, by rw [h.2]⟩

theorem stable_bind {α β : Type} (p : Parser α) (f : α → Parser β) (hp : Stable p)
    (hf : ∀ a, Stable (f a)) : Stable (p.bind f) := by
  intro s b r e h
  simp only [Parser.bind] at h ⊢
  cases hps : p s with
  | none => rw [hps] at h; cases h
  | some ar =>
    obtain ⟨a, r1⟩ := ar
    rw [hps] at h
    rw [hp s a r1 e hps]
    exact hf a r1 b r e h

theorem stable_readBytes (n : Nat) : Stable (readBytes n) := by
  intro s a r e h
  simp only [readBytes] at h ⊢
  by_cases hn : n ≤ s.length
  · rw [if_pos hn] at h
    simp only [Option.some.injEq, Prod.mk.injEq] at h
    rw [if_pos (by rw [List.length_append]; omega)]
    rw [List.take_append_of_le_length hn, List.drop_append_of_le_length hn, h.1, h.2]
  · rw [if_neg hn] at h; cases h

theorem stable_readLE (n : Nat) : Stable (readLE n) :=
  stable_bind _ _ (stable_readBytes n) (fun _ => stable_pure _)

theorem stable_readVarInt : Stable readVarInt := by
  intro s a r e h
  cases s with
  | nil => simp [readVarInt] at h
  | cons b t =>
    simp only [readVarInt, List.cons_append] at h ⊢
    by_cases h1 : b < 253
    · rw [if_pos h1] at h ⊢
      simp only [Option.some.injEq, Prod.mk.injEq] at h ⊢
      exact ⟨h.1, by rw [h.2]⟩
    · rw [if_neg h1] at h ⊢
      by_cases h2 : b = 253
      · rw [if_pos h2] at h ⊢
        exact stable_readLE 2 t a r e h
      · rw [if_neg h2] at h ⊢
        by_cases h3 : b = 254
        · rw [if_pos h3] at h ⊢
          exact stable_readLE 4 t a r e h
        · rw [if_neg h3] at h ⊢
          exact stable_readLE 8 t a r e h

theorem stable_repeatP {α : Type} (p : Parser α) (hp : Stable p) (n : Nat) :
    Stable (repeatP p n) := by
  induction n with
  | zero => exact stable_pure _
  | succ n ih =>
    exact stable_bind _ _ hp (fun _ => stable_bind _ _ ih (fun _ => stable_pure _))

theorem stable_peekMarker : Stable peekMarker := by
  intro s a r e h
  match s, h with
  | [], h => simp [peekMarker] at h
  | [_], h => simp [peekMarker] at h
  | x :: y :: t, h =>
    simp only [peekMarker, List.cons_append] at h ⊢
    by_cases hm : x = 0 ∧ y = 1
    · rw [if_pos hm] at h ⊢
      simp only [Option.some.injEq, Prod.mk.injEq] at h ⊢
      exact ⟨h.1, by rw [h.2]⟩
    · rw [if_neg hm] at h ⊢
      simp only [Option.some.injEq, Prod.mk.injEq] at h ⊢
      exact ⟨h.1, by rw [← h.2]; rfl⟩

theorem stable_parseTxIn : Stable parseTxIn :=
  stable_bind _ _ (stable_readBytes 32) fun _ =>
  stable_bind _ _ (stable_readLE 4) fun _ =>
  stable_bind _ _ stable_readVarInt fun _ =>
  stable_bind _ _ (stable_readBytes _) fun _ =>
  stable_bind _ _ (stable_readLE 4) fun _ => stable_pure _

theorem stable_parseTxOut : Stable parseTxOut :=
  stable_bind _ _ (stable_readLE 8) fun _ =>
  stable_bind _ _ stable_readVarInt fun _ =>
  stable_bind _ _ (stable_readBytes _) fun _ => stable_pure _

theorem stable_parseWitnessStack : Stable parseWitnessStack :=
  stable_bind _ _ stable_readVarInt fun _ =>
  stable_repeatP _ (stable_bind _ _ stable_readVarInt fun _ => stable_readBytes _) _

theorem stable_parseTx : Stable parseTx :=
  stable_bind _ _ (stable_readLE 4) fun _ =>
  stable_bind _ _ stable_peekMarker fun flag =>
  stable_bind _ _ stable_readVarInt fun _ =>
  stable_bind _ _ (stable_repeatP _ stable_parseTxIn _) fun _ =>
  stable_bind _ _ stable_readVarInt fun _ =>
  stable_bind _ _ (stable_repeatP _ stable_parseTxOut _) fun _ =>
  stable_bind _ _
    (by
      cases flag
      · exact stable_pure _
      · exact stable_bind _ _ (stable_repeatP _ stable_parseWitnessStack _)
          (fun _ => stable_pure _)) fun _ =>
  stable_bind _ _ (stable_readLE 4) fun _ => stable_pure _

theorem stable_parseHeader : Stable parseHeader :=
  stable_bind _ _ (stable_readLE 4) fun _ =>
  stable_bind _ _ (stable_readBytes 32) fun _ =>
  stable_bind _ _ (stable_readBytes 32) fun _ =>
  stable_bind _ _ (stable_readLE 4) fun _ =>
  stable_bind _ _ (stable_readLE 4) fun _ =>
  stable_bind _ _ (stable_readLE 4) fun _ => stable_pure _

theorem stable_parseBlock : Stable parseBlock :=
  stable_bind _ _ stable_parseHeader fun _ =>
  stable_bind _ _ stable_readVarInt fun _ =>
  stable_bind _ _ (stable_repeatP _ stable_parseTx _) fun _ => stable_pure _

theorem Deserialize_append (p extra : List Nat) (blk : MsgBlock) (r : List Nat)
    (h : parseBlock p = some (blk, r)) : MsgBlock.Deserialize (p ++ extra) = some blk := by
  simp [MsgBlock.Deserialize, stable_parseBlock p blk r extra h]

/-! ## Decoding what was serialized -/

theorem leBytes_length (k v : Nat) : (leBytes k v).length = k := by
  induction k generalizing v with
  | zero => rfl
  | succ k ih => simp [leBytes, ih]

theorem leValue_leBytes (k : Nat) : ∀ v, v < 256 ^ k → leValue (leBytes k v) = v := by
  induction k with
  | zero => intro v hv; simp at hv; simp [leBytes, leValue, hv]
  | succ k ih =>
    intro v hv
    have hd : v / 256 < 256 ^ k := by
      rw [Nat.div_lt_iff_lt_mul (by norm_num)]
      rw [pow_succ] at hv
      exact hv
    simp only [leBytes, leValue, ih _ hd]
    omega

theorem bind_of_eq {α β : Type} (p : Parser α) (f : α → Parser β) (s r : List Nat) (a : α)
    (h : p s = some (a, r)) : (p.bind f) s = f a r := by
  simp [Parser.bind, h]

theorem readBytes_append (x rest : List Nat) :
    readBytes x.length (x ++ rest) = some (x, rest) := by
  simp [readBytes]

theorem readBytes_append_of (n : Nat) (x rest : List Nat) (h : x.length = n) :
    readBytes n (x ++ rest) = some (x, rest) := by
  subst h; exact readBytes_append x rest

theorem readLE_leBytes (k v : Nat) (rest : List Nat) (hv : v < 256 ^ k) :
    readLE k (leBytes k v ++ rest) = some (v, rest) := by
  rw [readLE, bind_of_eq _ _ _ _ _ (readBytes_append_of k _ rest (leBytes_length k v))]
  simp [Parser.pure, leValue_leBytes k v hv]

theorem readVarInt_writeVarInt (v : Nat) (rest : List Nat) (hv : v < 2 ^ 64) :
    readVarInt (writeVarInt v ++ rest) = some (v, rest) := by
  unfold writeVarInt
  by_cases h1 : v < 253
  · simp [readVarInt, h1]
  · rw [if_neg h1]
    by_cases h2 : v < 2 ^ 16
    · rw [if_pos h2]
      simp only [readVarInt, List.cons_append]
      rw [if_neg (by omega), if_pos trivial]
      exact readLE_leBytes 2 v rest (by norm_num at h2 ⊢; omega)
    · rw [if_neg h2]
      by_cases h3 : v < 2 ^ 32
      · rw [if_pos h3]
        simp only [readVarInt, List.cons_append]
        rw [if_neg (by omega), if_neg (by omega), if_pos trivial]
        exact readLE_leBytes 4 v rest (by norm_num at h3 ⊢; omega)
      · rw [if_neg h3]
        simp only [readVarInt, List.cons_append]
        rw [if_neg (by omega), if_neg (by omega), if_neg (by omega)]
        exact readLE_leBytes 8 v rest (by norm_num at hv ⊢; omega)

theorem repeatP_serializeAll {α : Type} (p : Parser α) (f : α → List Nat) (l : List α)
    (h : ∀ a ∈ l, ∀ rest, p (f a ++ rest) = some (a, rest)) (rest : List Nat) :
    repeatP p l.length (serializeAll f l ++ rest) = some (l, rest) := by
  induction l with
  | nil => rfl
  | cons a l ih =>
    simp only [List.length_cons, repeatP, serializeAll, List.append_assoc]
    rw [bind_of_eq _ _ _ _ _ (h a (List.mem_cons_self _ _) _),
      bind_of_eq _ _ _ _ _ (ih (fun b hb => h b (List.mem_cons_of_mem _ hb)))]
    rfl

theorem parseTxIn_serialize (i : TxIn) (h : i.WF) (rest : List Nat) :
    parseTxIn (i.serialize ++ rest) = some (i, rest) := by
  obtain ⟨h1, h2, h3, h4⟩ := h
  simp only [TxIn.serialize, parseTxIn, List.append_assoc]
  rw [bind_of_eq _ _ _ _ _ (readBytes_append_of 32 _ _ h1),
    bind_of_eq _ _ _ _ _ (readLE_leBytes 4 _ _ (by norm_num; omega)),
    bind_of_eq _ _ _ _ _ (readVarInt_writeVarInt _ _ h3),
    bind_of_eq _ _ _ _ _ (readBytes_append _ _),
    bind_of_eq _ _ _ _ _ (readLE_leBytes 4 _ _ (by norm_num; omega))]
  rfl

theorem parseTxOut_serialize (o : TxOut) (h : o.WF) (rest : List Nat) :
    parseTxOut (o.serialize ++ rest) = some (o, rest) := by
  obtain ⟨h1, h2⟩ := h
  simp only [TxOut.serialize, parseTxOut, List.append_assoc]
  rw [bind_of_eq _ _ _ _ _ (readLE_leBytes 8 _ _ (by norm_num at h1 ⊢; omega)),
    bind_of_eq _ _ _ _ _ (readVarInt_writeVarInt _ _ h2),
    bind_of_eq _ _ _ _ _ (readBytes_append _ _)]
  rfl

theorem parseWitnessStack_serialize (stack : List (List Nat)) (h : stackWF stack)
    (rest : List Nat) :
    parseWitnessStack (serializeStack stack ++ rest) = some (stack, rest) := by
  obtain ⟨h1, h2⟩ := h
  simp only [serializeStack, parseWitnessStack, List.append_assoc]
  rw [bind_of_eq _ _ _ _ _ (readVarInt_writeVarInt _ _ h1)]
  apply repeatP_serializeAll
  intro item hi r
  rw [List.append_assoc, bind_of_eq _ _ _ _ _ (readVarInt_writeVarInt _ _ (h2 item hi))]
  exact readBytes_append _ _

theorem peekMarker_marker (x : List Nat) : peekMarker ([0, 1] ++ x) = some (true, x) := by
  simp [peekMarker]

theorem peekMarker_count (n : Nat) (y : List Nat) (hn : n ≠ 0) (hy : y ≠ []) :
    peekMarker (writeVarInt n ++ y) = some (false, writeVarInt n ++ y) := by
  obtain ⟨b, t, rfl⟩ : ∃ b t, y = b :: t := by
    cases y with
    | nil => exact absurd rfl hy
    | cons b t => exact ⟨b, t, rfl⟩
  unfold writeVarInt
  by_cases h1 : n < 253
  · simp [peekMarker, h1, hn]
  · rw [if_neg h1]
    by_cases h2 : n < 2 ^ 16
    · rw [if_pos h2]
      simp [peekMarker, leBytes]
    · rw [if_neg h2]
      by_cases h3 : n < 2 ^ 32
      · rw [if_pos h3]
        simp [peekMarker, leBytes]
      · rw [if_neg h3]
        simp [peekMarker, leBytes]

theorem serializeIns_ne_nil (ins : List TxIn) (h : ∀ i ∈ ins, i.WF) (hne : ins ≠ [])
    (rest : List Nat) : serializeAll TxIn.serialize ins ++ rest ≠ [] := by
  cases ins with
  | nil => exact absurd rfl hne
  | cons i l =>
    have h32 := (h i (List.mem_cons_self _ _)).1
    intro hnil
    have := congrArg List.length hnil
    simp only [serializeAll, TxIn.serialize, List.length_append, h32, List.length_nil] at this
    omega

theorem parseTx_witness (tx : MsgTx) (w : List (List (List Nat))) (hw : tx.Witness = some w)
    (h : tx.WF) (rest : List Nat) :
    parseTx (tx.serialize false ++ rest) = some (tx, rest) := by
  obtain ⟨h1, h2, h3, h4, h5, h6, h7⟩ := h
  obtain ⟨h8, h9⟩ := h7 w hw
  simp only [MsgTx.serialize, hw, parseTx, List.append_assoc]
  rw [bind_of_eq _ _ _ _ _ (readLE_leBytes 4 _ _ (by norm_num; omega)),
    bind_of_eq _ _ _ _ _ (peekMarker_marker _),
    bind_of_eq _ _ _ _ _ (readVarInt_writeVarInt _ _ h3),
    bind_of_eq _ _ _ _ _ (repeatP_serializeAll _ _ _
      (fun i hi r => parseTxIn_serialize i (h5 i hi) r) _),
    bind_of_eq _ _ _ _ _ (readVarInt_writeVarInt _ _ h4),
    bind_of_eq _ _ _ _ _ (repeatP_serializeAll _ _ _
      (fun o ho r => parseTxOut_serialize o (h6 o ho) r) _)]
  simp only [if_true]
  rw [← h8]
  rw [bind_of_eq _ _ _ _ (some w) (by
      rw [bind_of_eq _ _ _ _ _ (repeatP_serializeAll _ _ _
        (fun s hs r => parseWitnessStack_serialize s (h9 s hs) r) _)]
      rfl),
    bind_of_eq _ _ _ _ _ (readLE_leBytes 4 _ _ (by norm_num; omega))]
  simp only [Parser.pure, Option.some.injEq, Prod.mk.injEq, and_true]
  cases tx
  simp only at hw
  simp [hw]

theorem serialize_plain (tx : MsgTx) : tx.serialize true =
    leBytes 4 tx.Version ++ (writeVarInt tx.TxIn.length ++ serializeAll TxIn.serialize tx.TxIn)
      ++ (writeVarInt tx.TxOut.length ++ serializeAll TxOut.serialize tx.TxOut)
      ++ leBytes 4 tx.LockTime := by
  simp [MsgTx.serialize]

theorem parseTx_plain (tx : MsgTx) (h : tx.WF) (hin : tx.TxIn ≠ []) (rest : List Nat) :
    parseTx (tx.serialize true ++ rest) = some (tx.stripWitness, rest) := by
  obtain ⟨h1, h2, h3, h4, h5, h6, h7⟩ := h
  have hn : tx.TxIn.length ≠ 0 := by
    intro h0; exact hin (List.length_eq_zero.mp h0)
  rw [serialize_plain]
  simp only [parseTx, List.append_assoc]
  rw [bind_of_eq _ _ _ _ _ (readLE_leBytes 4 _ _ (by norm_num; omega)),
    bind_of_eq _ _ _ _ _ (peekMarker_count _ _ hn (serializeIns_ne_nil _ h5 hin _)),
    bind_of_eq _ _ _ _ _ (readVarInt_writeVarInt _ _ h3),
    bind_of_eq _ _ _ _ _ (repeatP_serializeAll _ _ _
      (fun i hi r => parseTxIn_serialize i (h5 i hi) r) _),
    bind_of_eq _ _ _ _ _ (readVarInt_writeVarInt _ _ h4),
    bind_of_eq _ _ _ _ _ (repeatP_serializeAll _ _ _
      (fun o ho r => parseTxOut_serialize o (h6 o ho) r) _)]
  simp only [Bool.false_eq_true, if_false]
  rw [bind_of_eq _ _ _ _ none rfl,
    bind_of_eq _ _ _ _ _ (readLE_leBytes 4 _ _ (by norm_num; omega))]
  rfl

theorem serialize_none (tx : MsgTx) (hw : tx.Witness = none) (b : Bool) :
    tx.serialize b = tx.serialize true := by
  cases b <;> simp [MsgTx.serialize, hw]

theorem stripWitness_none (tx : MsgTx) (hw : tx.Witness = none) : tx.stripWitness = tx := by
  cases tx
  simp only at hw
  simp [MsgTx.stripWitness, hw]

theorem parseTx_full (tx : MsgTx) (h : tx.WF) (hin : tx.TxIn ≠ []) (rest : List Nat) :
    parseTx (tx.serialize false ++ rest) = some (tx, rest) := by
  cases hw : tx.Witness with
  | none =>
    rw [serialize_none tx hw, parseTx_plain tx h hin, stripWitness_none tx hw]
  | some w => exact parseTx_witness tx w hw h rest

theorem TxHash_stripWitness (sha256 : List Nat → List Nat) (tx : MsgTx) :
    tx.stripWitness.TxHash sha256 = tx.TxHash sha256 := by
  simp [MsgTx.TxHash, MsgTx.serialize, MsgTx.stripWitness]

theorem parseHeader_serialize (h : BlockHeader) (hw : h.WF) (rest : List Nat) :
    parseHeader (h.serialize ++ rest) = some (h, rest) := by
  obtain ⟨h1, h2, h3, h4, h5, h6⟩ := hw
  simp only [BlockHeader.serialize, parseHeader, List.append_assoc]
  rw [bind_of_eq _ _ _ _ _ (readLE_leBytes 4 _ _ (by norm_num; omega)),
    bind_of_eq _ _ _ _ _ (readBytes_append_of 32 _ _ h2),
    bind_of_eq _ _ _ _ _ (readBytes_append_of 32 _ _ h3),
    bind_of_eq _ _ _ _ _ (readLE_leBytes 4 _ _ (by norm_num; omega)),
    bind_of_eq _ _ _ _ _ (readLE_leBytes 4 _ _ (by norm_num; omega)),
    bind_of_eq _ _ _ _ _ (readLE_leBytes 4 _ _ (by norm_num; omega))]
  rfl

theorem parseBlock_full (blk : MsgBlock) (h : blk.WF)
    (hin : ∀ tx ∈ blk.Transactions, tx.TxIn ≠ []) (rest : List Nat) :
    parseBlock (blk.serialize false ++ rest) = some (blk, rest) := by
  obtain ⟨h1, h2, h3⟩ := h
  simp only [MsgBlock.serialize, parseBlock, List.append_assoc]
  rw [bind_of_eq _ _ _ _ _ (parseHeader_serialize _ h1 _),
    bind_of_eq _ _ _ _ _ (readVarInt_writeVarInt _ _ h2),
    bind_of_eq _ _ _ _ _ (repeatP_serializeAll _ _ _
      (fun tx ht r => parseTx_full tx (h3 tx ht) (hin tx ht) r) _)]
  rfl

theorem repeatP_serializeAll_map {α : Type} (p : Parser α) (f : α → List Nat) (g : α → α)
    (l : List α) (h : ∀ a ∈ l, ∀ rest, p (f a ++ rest) = some (g a, rest)) (rest : List Nat) :
    repeatP p l.length (serializeAll f l ++ rest) = some (l.map g, rest) := by
  induction l with
  | nil => rfl
  | cons a l ih =>
    simp only [List.length_cons, repeatP, serializeAll, List.append_assoc]
    rw [bind_of_eq _ _ _ _ _ (h a (List.mem_cons_self _ _) _),
      bind_of_eq _ _ _ _ _ (ih (fun b hb => h b (List.mem_cons_of_mem _ hb)))]
    rfl

theorem parseBlock_plain (blk : MsgBlock) (h : blk.WF)
    (hin : ∀ tx ∈ blk.Transactions, tx.TxIn ≠ []) (rest : List Nat) :
    parseBlock (blk.serialize true ++ rest) =
      some (⟨blk.Header, blk.Transactions.map MsgTx.stripWitness⟩, rest) := by
  obtain ⟨h1, h2, h3⟩ := h
  simp only [MsgBlock.serialize, parseBlock, List.append_assoc]
  rw [bind_of_eq _ _ _ _ _ (parseHeader_serialize _ h1 _),
    bind_of_eq _ _ _ _ _ (readVarInt_writeVarInt _ _ h2),
    bind_of_eq _ _ _ _ _ (repeatP_serializeAll_map _ _ MsgTx.stripWitness _
      (fun tx ht r => parseTx_plain tx (h3 tx ht) (hin tx ht) r) _)]
  rfl

/-! ## Small facts used by the statements below -/

theorem take_eq_of_length (l : List Nat) :
    ∀ n m, (l.take n).length = (l.take m).length → l.take n = l.take m := by
  induction l with
  | nil => intro n m _; simp
  | cons a l ih =>
    intro n m h
    cases n with
    | zero =>
      cases m with
      | zero => rfl
      | succ m => simp at h
    | succ n =>
      cases m with
      | zero => simp at h
      | succ m =>
        simp only [List.take_succ_cons, List.length_cons, Nat.add_right_cancel_iff] at h
        rw [List.take_succ_cons, List.take_succ_cons, ih n m h]

theorem take_length_self (l x : List Nat) (m : Nat) (h : x = l.take m) :
    x = l.take x.length := by
  rw [h]
  apply take_eq_of_length
  simp only [List.length_take]
  omega

theorem xorStream_eq (key input sched sizes : List Nat) :
    ∃ n, xorStream key input sched sizes = xorAt key 0 (input.take n) := by
  obtain ⟨n, hn⟩ := readSeq_File sizes ⟨input, sched⟩
  exact ⟨n, by rw [xorStream, readSeq_xor, hn]⟩

theorem readBlockFile_eq {β : Type} (env : Env β) (key : List Nat) (file : File) (fuel : Nat)
    (hkey : loadKey env = Except.ok key) (hopen : env.openBlock = Except.ok file) :
    readBlockFile env fuel = frameLoop env.Deserialize fuel (newBlockReader file key) := by
  simp [readBlockFile, hkey, hopen]

theorem xorAt_data_length (key : List Nat) (file : File) :
    (newBlockReader file key).stream.length = file.data.length := by
  rw [newBlockReader_stream, xorAt_length]

/-! ## The deobfuscation stream -/

/-- C1: for every input, key and way of splitting the reads (the counts `sched`
returned by the file and the buffer lengths `sizes`), the bytes returned by
`xorReader.Read` from `pos = 0` are an initial piece of the input transformed
position by position, the byte at offset `i` being `input[i] XOR key[i mod 8]`;
two splittings that return the same number of bytes return the same bytes. The
first part states the same over any underlying reader, whatever counts it
returns: the output at offset `i` is the byte the reader delivered at offset
`i`, XORed with `key[i mod 8]`. -/
theorem xorReader_Read_position_wise (input key sched sizes : List Nat) :
    (∀ (σ : Type) (rd : σ → Nat → ReadResult σ) (s : σ) (lens : List Nat) (i : Nat),
      (readSeq (xorReader.Read rd) ⟨s, key, 0⟩ lens)[i]? =
        ((readSeq rd s lens)[i]?).map (fun b => b ^^^ key.getD (i % 8) 0)) ∧
    (xorStream key input sched sizes).length ≤ input.length ∧
    (∀ i, i < (xorStream key input sched sizes).length →
      (xorStream key input sched sizes)[i]? =
        (input[i]?).map (fun b => b ^^^ key.getD (i % 8) 0)) ∧
    (∀ sched2 sizes2 : List Nat,
      (xorStream key input sched2 sizes2).length = (xorStream key input sched sizes).length →
      xorStream key input sched2 sizes2 = xorStream key input sched sizes) := by
  obtain ⟨n, hn⟩ := xorStream_eq key input sched sizes
  refine ⟨?_, ?_, ?_, ?_⟩
  · intro σ rd s lens i
    rw [readSeq_xor, xorAt_getElem?, Nat.zero_add]
  · rw [hn, xorAt_length, List.length_take]; omega
  · intro i hi
    rw [hn, xorAt_length, List.length_take] at hi
    rw [hn, xorAt_getElem?, Nat.zero_add, List.getElem?_take_of_lt (by omega)]
  · intro sched2 sizes2 hlen
    obtain ⟨m, hm⟩ := xorStream_eq key input sched2 sizes2
    rw [hn, hm, xorAt_length, xorAt_length] at hlen
    rw [hn, hm, take_eq_of_length input m n hlen]

/-- C1 on a concrete input: eleven bytes read in pieces of 1, 3, 1 and 6 bytes
and in one piece. -/
theorem xorReader_Read_position_wise_witness :
    xorStream exampleKey [1, 2, 3, 4, 5, 6, 7, 8, 9, 10, 11] [] [100] =
      [160, 94, 48, 3, 235, 22, 156, 74, 168, 86, 56] ∧
    xorStream exampleKey [1, 2, 3, 4, 5, 6, 7, 8, 9, 10, 11] [0, 2] [3, 5, 1, 20] =
      xorStream exampleKey [1, 2, 3, 4, 5, 6, 7, 8, 9, 10, 11] [] [100] :=
  ⟨by decide,
    (xorReader_Read_position_wise [1, 2, 3, 4, 5, 6, 7, 8, 9, 10, 11] exampleKey [] [100]).2.2.2
      [0, 2] [3, 5, 1, 20] (by decide)⟩

/-- C7: passing bytes through an `xorReader` and the result through a second
`xorReader` with the same key, both from `pos = 0` and each with its own
splitting of the reads, returns an initial piece of the original bytes, and all
of them when as many bytes come out as went in; two readers stacked directly
return what the file returns. -/
theorem xorReader_Read_twice (input key sched1 sizes1 sched2 sizes2 : List Nat) :
    xorStream key (xorStream key input sched1 sizes1) sched2 sizes2 =
      input.take (xorStream key (xorStream key input sched1 sizes1) sched2 sizes2).length ∧
    ((xorStream key (xorStream key input sched1 sizes1) sched2 sizes2).length = input.length →
      xorStream key (xorStream key input sched1 sizes1) sched2 sizes2 = input) ∧
    readSeq (xorReader.Read (xorReader.Read File.Read)) ⟨⟨⟨input, sched1⟩, key, 0⟩, key, 0⟩ sizes1
      = readSeq File.Read ⟨input, sched1⟩ sizes1 := by
  obtain ⟨n, hn⟩ := xorStream_eq key input sched1 sizes1
  obtain ⟨m, hm⟩ := xorStream_eq key (xorStream key input sched1 sizes1) sched2 sizes2
  have h : xorStream key (xorStream key input sched1 sizes1) sched2 sizes2 =
      input.take (min m n) := by
    rw [hm, hn, xorAt_take, xorAt_xorAt, List.take_take]
  have h2 := take_length_self input _ _ h
  refine ⟨h2, ?_, ?_⟩
  · intro hl
    rw [h2, hl, List.take_length]
  · rw [readSeq_xor, readSeq_xor]
    exact xorAt_xorAt key _ 0

/-- C7 on a concrete input: eleven bytes, two different splittings. -/
theorem xorReader_Read_twice_witness :
    xorStream exampleKey (xorStream exampleKey [1, 2, 3, 4, 5, 6, 7, 8, 9, 10, 11] [0, 2]
      [3, 5, 1, 20]) [4] [2, 7, 9, 9] = [1, 2, 3, 4, 5, 6, 7, 8, 9, 10, 11] :=
  (xorReader_Read_twice [1, 2, 3, 4, 5, 6, 7, 8, 9, 10, 11] exampleKey [0, 2] [3, 5, 1, 20] [4]
    [2, 7, 9, 9]).2.1 (by decide)

/-! ## The frame loop -/

/-- C2, as stated, fails: a block file that is exactly one well-formed frame
(mainnet magic, length 0, no payload bytes) does not end in `return nil`,
whatever the fuel; the loop hands the empty payload to `blk.Deserialize`, which
fails, and exits through `log.Fatal`. -/
theorem readBlockFile_undecodable_payload :
    (newBlockReader ⟨frames [[]], []⟩ zeroKey).stream = frames [[]] ∧
    ∀ fuel, readBlockFile emptyPayloadEnv (fuel + 10) =
      some ⟨[4, 4, 0], [[]], [], Halt.fatalDecode⟩ := by
  refine ⟨by decide, fun fuel => ?_⟩
  exact readBlockFile_mono emptyPayloadEnv 10 (fuel + 10) _ (by decide) (by omega)

/-- C2, amended: when the deobfuscated stream is exactly the frames of the
payloads `ps` (each shorter than `2 ^ 32`) followed by a clean end, and
`blk.Deserialize` accepts every payload, the frame loop of `readBlockFile` hands
exactly the payloads `ps` to the decoder, in order, each read with its declared
length, reports their blocks, and ends with `return nil`; for `ps = []` it
returns `nil` having produced nothing. -/
theorem readBlockFile_wellFormed_frames {β : Type} (env : Env β) (key : List Nat) (file : File)
    (ps : List (List Nat)) (fuel : Nat)
    (hkey : loadKey env = Except.ok key) (hopen : env.openBlock = Except.ok file)
    (hstream : xorAt key 0 file.data = frames ps)
    (hlen : ∀ p ∈ ps, p.length < 2 ^ 32)
    (hdec : ∀ p ∈ ps, env.Deserialize p ≠ none)
    (hfuel : file.data.length + 2 ≤ fuel) :
    readBlockFile env fuel =
      some ⟨frameReads ps, ps, ps.filterMap env.Deserialize, Halt.returned none⟩ := by
  rw [readBlockFile_eq env key file fuel hkey hopen]
  exact frameLoop_frames env.Deserialize ps _ fuel (newBlockReader_inv file key)
    (by rw [newBlockReader_stream, hstream]) hlen hdec
    (by rw [xorAt_data_length]; exact hfuel)

/-- C2 on a concrete input: two frames behind an obfuscation key, the file
being read in short pieces. -/
theorem readBlockFile_wellFormed_frames_witness :
    readBlockFile obfuscatedEnv 400 =
      some ⟨[4, 4, 141, 4, 4, 141, 4], [examplePayload, examplePayload],
        [exampleBlock, exampleBlock], Halt.returned none⟩ :=
  readBlockFile_wellFormed_frames obfuscatedEnv exampleKey
    ⟨xorAt exampleKey 0 (frames [examplePayload, examplePayload]), [0, 2, 99, 6]⟩
    [examplePayload, examplePayload] 400 (by rfl) (by rfl) (by decide) (by decide)
    (by decide) (by decide)

/-- C3: the code reports a wrong offset. On the two-frame file (a 141-byte
block, then a frame whose magic is off by one bit) the second frame starts at
offset 149, and the loop, after reporting the first block, halts with
`bad magic 0xd9b4bef8 at offset 294`: `xr.pos` is 298, the size of the file,
because `blockReader` filled its buffer with the whole file on the first read. -/
theorem badMagic_offset_runs_ahead :
    (frame MainnetMagic examplePayload).length = 149 ∧
    twoFrameFile.drop 149 = frame 0xD9B4BEF8 examplePayload ∧
    ∀ fuel, readBlockFile twoFrameEnv (fuel + 10) =
      some ⟨[4, 4, 141, 4], [examplePayload], [exampleBlock],
        Halt.fatalBadMagic 0xD9B4BEF8 294⟩ := by
  refine ⟨by decide, by decide, fun fuel => ?_⟩
  exact readBlockFile_mono twoFrameEnv 10 (fuel + 10) _ (by decide) (by omega)

/-- C4: when the deobfuscated stream is some complete frames followed by a
non-empty proper initial piece of a frame (1 to 3 bytes of the magic, the magic
and fewer than 4 length bytes, or magic and length and fewer payload bytes than
declared), the frame loop ends in one of its `log.Fatal` exits, never in a
`return`, and every payload it handed to the decoder is the payload of one of
the complete frames. -/
theorem readBlockFile_truncated_fatal {β : Type} (env : Env β) (key : List Nat) (file : File)
    (ps : List (List Nat)) (cut : List Nat) (fuel : Nat)
    (hkey : loadKey env = Except.ok key) (hopen : env.openBlock = Except.ok file)
    (hstream : xorAt key 0 file.data = frames ps ++ cut)
    (hlen : ∀ p ∈ ps, p.length < 2 ^ 32) (hcut : Truncated cut)
    (hfuel : file.data.length + 6 ≤ fuel) :
    ∃ run, readBlockFile env fuel = some run ∧ (∀ e, run.halt ≠ Halt.returned e) ∧
      ∃ t, run.payloads ++ t = ps := by
  rw [readBlockFile_eq env key file fuel hkey hopen]
  exact frameLoop_truncated env.Deserialize ps _ fuel cut (newBlockReader_inv file key)
    (by rw [newBlockReader_stream, hstream]) hlen hcut
    (by rw [xorAt_data_length]; exact hfuel)

/-- C4 on a concrete input: one complete frame, then a frame cut after 100 of
its 149 bytes. -/
theorem readBlockFile_truncated_fatal_witness :
    ∃ run, readBlockFile
        ⟨Except.error (Error.errno 2), Except.error (Error.errno 2),
          Except.ok ⟨frames [examplePayload] ++ (frame MainnetMagic examplePayload).take 100, [7]⟩,
          MsgBlock.Deserialize⟩ 400 = some run ∧
      (∀ e, run.halt ≠ Halt.returned e) ∧ ∃ t, run.payloads ++ t = [examplePayload] :=
  readBlockFile_truncated_fatal _ zeroKey
    ⟨frames [examplePayload] ++ (frame MainnetMagic examplePayload).take 100, [7]⟩
    [examplePayload] ((frame MainnetMagic examplePayload).take 100) 400 (by rfl) (by rfl)
    (by decide) (by decide)
    ⟨by decide, examplePayload, (frame MainnetMagic examplePayload).drop 100, by decide,
      by decide, by decide⟩
    (by decide)

/-- C8: when the deobfuscated stream has at least 4 bytes and its first 4
bytes, read as a little-endian `uint32`, are not `0xD9B4BEF9`, the run ends in
the bad-magic exit with that value; the only read asked of `blockReader` is the
4-byte read of the magic, and no payload is produced. -/
theorem readBlockFile_badMagic_first {β : Type} (env : Env β) (key : List Nat) (file : File)
    (fuel : Nat) (hkey : loadKey env = Except.ok key) (hopen : env.openBlock = Except.ok file)
    (h4 : 4 ≤ file.data.length)
    (hm : binary.LittleEndian.Uint32 ((xorAt key 0 file.data).take 4) ≠ MainnetMagic)
    (hfuel : 6 ≤ fuel) :
    ∃ off, readBlockFile env fuel = some ⟨[4], [], [],
      Halt.fatalBadMagic (binary.LittleEndian.Uint32 ((xorAt key 0 file.data).take 4)) off⟩ := by
  rw [readBlockFile_eq env key file fuel hkey hopen, ← newBlockReader_stream]
  exact frameLoop_badMagic env.Deserialize _ (newBlockReader_inv file key)
    (by rw [xorAt_data_length]; exact h4) (by rw [newBlockReader_stream]; exact hm) fuel hfuel

/-- C8 on a concrete input: a file that starts with the magic off by one bit. -/
theorem readBlockFile_badMagic_first_witness :
    ∃ off, readBlockFile
        ⟨Except.error (Error.errno 2), Except.error (Error.errno 2),
          Except.ok ⟨frame 0xD9B4BEF8 examplePayload, []⟩, MsgBlock.Deserialize⟩ 6 =
      some ⟨[4], [], [], Halt.fatalBadMagic
        (binary.LittleEndian.Uint32
          ((xorAt zeroKey 0 (frame 0xD9B4BEF8 examplePayload)).take 4)) off⟩ :=
  readBlockFile_badMagic_first _ zeroKey ⟨frame 0xD9B4BEF8 examplePayload, []⟩ 6 (by rfl)
    (by rfl) (by decide) (by decide) (by decide)

/-! ## The decoder and the key file -/

/-- C5, as stated, fails: the frame whose payload is the 81 bytes of a valid
block followed by one trailing byte declares length 82, the decode consumes 81
bytes, and the frame is accepted: the block is reported and the run ends with
`return nil`. -/
theorem trailing_byte_accepted :
    parseBlock trailingPayload = some (emptyBlock, [0xAA]) ∧ trailingPayload.length = 82 ∧
    ∀ fuel, readBlockFile trailingEnv (fuel + 10) =
      some ⟨[4, 4, 82, 4], [trailingPayload], [emptyBlock], Halt.returned none⟩ := by
  refine ⟨by decide, by decide, fun fuel => ?_⟩
  exact readBlockFile_mono trailingEnv 10 (fuel + 10) _ (by decide) (by omega)

/-- C5, amended: a frame whose payload is a validly encoded block (the decode
of `p` consumes all of `p`) followed by any trailing bytes `extra` is accepted:
the block decoded from `p` is reported and the run goes on to the clean end of
the stream; the declared length is not compared with the number of bytes the
decode consumed. -/
theorem readBlockFile_ignores_trailing_bytes (env : Env MsgBlock) (key : List Nat) (file : File)
    (p extra : List Nat) (blk : MsgBlock) (fuel : Nat)
    (hD : env.Deserialize = MsgBlock.Deserialize)
    (hkey : loadKey env = Except.ok key) (hopen : env.openBlock = Except.ok file)
    (hp : parseBlock p = some (blk, []))
    (hlen : (p ++ extra).length < 2 ^ 32)
    (hstream : xorAt key 0 file.data = frames [p ++ extra])
    (hfuel : file.data.length + 2 ≤ fuel) :
    readBlockFile env fuel =
      some ⟨[4, 4, (p ++ extra).length, 4], [p ++ extra], [blk], Halt.returned none⟩ := by
  have hdec : MsgBlock.Deserialize (p ++ extra) = some blk := Deserialize_append p extra blk [] hp
  rw [readBlockFile_eq env key file fuel hkey hopen, hD,
    frameLoop_frames MsgBlock.Deserialize [p ++ extra] _ fuel (newBlockReader_inv file key)
      (by rw [newBlockReader_stream, hstream])
      (by intro q hq; rw [List.mem_singleton.mp hq]; exact hlen)
      (by intro q hq; rw [List.mem_singleton.mp hq, hdec]; exact Option.some_ne_none _)
      (by rw [xorAt_data_length]; exact hfuel)]
  simp [frameReads, hdec]

/-- C5 on a concrete input: the block without transactions followed by one
byte, behind an obfuscation key. -/
theorem readBlockFile_ignores_trailing_bytes_witness :
    readBlockFile
        ⟨Except.ok 8, Except.ok ⟨exampleKey, []⟩,
          Except.ok ⟨xorAt exampleKey 0 (frames [emptyBlock.serialize true ++ [0xAA]]), []⟩,
          MsgBlock.Deserialize⟩ 100 =
      some ⟨[4, 4, (emptyBlock.serialize true ++ [0xAA]).length, 4],
        [emptyBlock.serialize true ++ [0xAA]], [emptyBlock], Halt.returned none⟩ :=
  readBlockFile_ignores_trailing_bytes _ exampleKey
    ⟨xorAt exampleKey 0 (frames [emptyBlock.serialize true ++ [0xAA]]), []⟩
    (emptyBlock.serialize true) [0xAA] emptyBlock 100 rfl (by rfl) (by rfl) (by decide)
    (by decide) (by decide) (by decide)

/-- C6, as stated, fails for a transaction with no inputs: serialized with the
marker and its (empty) witness data it decodes to itself, but serialized without
them its input count `0x00` and output count `0x01` are read as the witness
marker and the decode fails, so no id is computed for it. -/
theorem TxHash_no_inputs :
    noInputTx.TxIn.length = 0 ∧
    MsgBlock.Deserialize (noInputBlock.serialize false) = some noInputBlock ∧
    MsgBlock.Deserialize (noInputBlock.serialize true) = none := by
  refine ⟨by decide, by decide, by decide⟩

/-- C6, amended: for every block whose fields fit their wire widths and whose
transactions have at least one input each, the serialization with witness data
decodes to the block itself (each transaction with its declared witness stacks,
one per input), the serialization without marker, flag and witness stacks
decodes too, and the ids of the transactions decoded from the two forms are the
same, for every hash function `sha256`. -/
theorem TxHash_witness_independent (sha256 : List Nat → List Nat) (blk : MsgBlock)
    (hWF : blk.WF) (hin : ∀ tx ∈ blk.Transactions, tx.TxIn ≠ []) :
    MsgBlock.Deserialize (blk.serialize false) = some blk ∧
    (∀ tx ∈ blk.Transactions, ∀ w, tx.Witness = some w → w.length = tx.TxIn.length) ∧
    ∃ plain, MsgBlock.Deserialize (blk.serialize true) = some plain ∧
      plain.Transactions.map (MsgTx.TxHash sha256) =
        blk.Transactions.map (MsgTx.TxHash sha256) := by
  have h1 := parseBlock_full blk hWF hin []
  have h2 := parseBlock_plain blk hWF hin []
  rw [List.append_nil] at h1 h2
  refine ⟨by simp [MsgBlock.Deserialize, h1], ?_,
    ⟨blk.Header, blk.Transactions.map MsgTx.stripWitness⟩,
    by simp [MsgBlock.Deserialize, h2], ?_⟩
  · intro tx ht w hw
    exact ((hWF.2.2 tx ht).2.2.2.2.2.2 w hw).1
  · simp only [List.map_map]
    apply List.map_congr_left
    intro tx _
    exact TxHash_stripWitness sha256 tx

/-- C6 on a concrete input: a block with a coinbase-like transaction and a
transaction of two inputs with two witness items each. -/
theorem TxHash_witness_independent_witness :
    MsgBlock.Deserialize (segwitBlock.serialize false) = some segwitBlock ∧
    (∀ tx ∈ segwitBlock.Transactions, ∀ w, tx.Witness = some w → w.length = tx.TxIn.length) ∧
    ∃ plain, MsgBlock.Deserialize (segwitBlock.serialize true) = some plain ∧
      plain.Transactions.map (MsgTx.TxHash (fun bytes => bytes.reverse)) =
        segwitBlock.Transactions.map (MsgTx.TxHash (fun bytes => bytes.reverse)) :=
  TxHash_witness_independent (fun bytes => bytes.reverse) segwitBlock
    (by
      simp only [MsgBlock.WF, BlockHeader.WF, MsgTx.WF, TxIn.WF, TxOut.WF, stackWF, segwitBlock,
        exampleHeader, coinbaseTx, segwitTx]
      simp)
    (by simp [segwitBlock, coinbaseTx, segwitTx])

/-- C9, as stated, fails: with a key file of 8 bytes that cannot be opened,
`readBlockFile` returns the error of `os.Open` and never opens the block file. -/
theorem keyFile_open_error_returned :
    loadKey unreadableKeyEnv = Except.error (Error.errno 13) ∧
    ∀ fuel, readBlockFile unreadableKeyEnv fuel =
      some ⟨[], [], [], Halt.returned (some (Error.errno 13))⟩ :=
  ⟨rfl, fun _ => rfl⟩

/-- C9, amended: when `os.Stat` fails on the key file, `readBlockFile` goes on
to open the block file and reads it with the all-zero key; when `os.Stat`
succeeds with a size above 0 and `os.Open` or `file.Read` on the key file
returns an error, `readBlockFile` returns that error without reading the block
file. -/
theorem keyFile_errors {β : Type} (env : Env β) (fuel : Nat) :
    (∀ e, env.statXOR = Except.error e →
      loadKey env = Except.ok zeroKey ∧
      ∀ file, env.openBlock = Except.ok file →
        readBlockFile env fuel = frameLoop env.Deserialize fuel (newBlockReader file zeroKey)) ∧
    (∀ size e, env.statXOR = Except.ok size → 0 < size → env.openXOR = Except.error e →
      readBlockFile env fuel = some ⟨[], [], [], Halt.returned (some e)⟩) ∧
    (∀ size file e, env.statXOR = Except.ok size → 0 < size → env.openXOR = Except.ok file →
      (file.Read 8).err = some e →
      readBlockFile env fuel = some ⟨[], [], [], Halt.returned (some e)⟩) := by
  refine ⟨?_, ?_, ?_⟩
  · intro e hs
    have hk : loadKey env = Except.ok zeroKey := by simp [loadKey, hs, zeroKey]
    exact ⟨hk, fun file ho => readBlockFile_eq env zeroKey file fuel hk ho⟩
  · intro size e hs hpos ho
    simp [readBlockFile, loadKey, hs, hpos, ho]
  · intro size file e hs hpos ho hr
    simp [readBlockFile, loadKey, hs, hpos, ho, hr]

/-- C9 on concrete inputs: no key file, a key file that cannot be opened, and
a key file that turns out empty when read. -/
theorem keyFile_errors_witness :
    loadKey twoFrameEnv = Except.ok zeroKey ∧
    readBlockFile unreadableKeyEnv 10 =
      some ⟨[], [], [], Halt.returned (some (Error.errno 13))⟩ ∧
    readBlockFile (⟨Except.ok 8, Except.ok ⟨[], []⟩, Except.ok ⟨twoFrameFile, []⟩,
        MsgBlock.Deserialize⟩ : Env MsgBlock) 10 =
      some ⟨[], [], [], Halt.returned (some Error.EOF)⟩ :=
  ⟨((keyFile_errors twoFrameEnv 10).1 (Error.errno 2) rfl).1,
    (keyFile_errors unreadableKeyEnv 10).2.1 8 (Error.errno 13) rfl (by decide) rfl,
    (keyFile_errors _ 10).2.2 8 ⟨[], []⟩ Error.EOF rfl (by decide) rfl rfl⟩

end Bitxtractor
